import Mathlib

/- Verification development for the Pytoon short-form video render engine
   (scene-graph pipeline).  Python strings are modelled as `List Char`;
   the CPython `re` whole-word substitutions, `str.strip`, `str.split`,
   `str.lower` and the arithmetic on `float` values (modelled exactly over
   `ℚ`, with `int(...)` as truncation toward zero) are embedded as
   executable functions.  Each section names the source file and function
   it embeds. -/

set_option maxHeartbeats 1000000

namespace Pytoon

/-! ## Character-level helpers (ASCII model of CPython semantics) -/

/-- word character in the sense of the regex `\b` boundary (ASCII model of
CPython `\w`). -/
def isWordChar (c : Char) : Bool :=
  (97 ≤ c.toNat && c.toNat ≤ 122) || (65 ≤ c.toNat && c.toNat ≤ 90) ||
    (48 ≤ c.toNat && c.toNat ≤ 57) || c.toNat == 95

/-- whitespace in the sense of CPython `\s` / `str.strip` (ASCII model:
space, tab, newline, carriage return, vertical tab, form feed). -/
def pyIsSpace (c : Char) : Bool :=
  c.toNat == 32 || c.toNat == 9 || c.toNat == 10 || c.toNat == 13 ||
    c.toNat == 11 || c.toNat == 12

/-- ASCII lower-casing, as used by `re.IGNORECASE` matching of ASCII patterns
and by `str.lower`. -/
def lowChar (c : Char) : Char :=
  if 65 ≤ c.toNat && c.toNat ≤ 90 then Char.ofNat (c.toNat + 32) else c

/-- lower-case ASCII letter test, used to state side conditions on the
substitution keys (all of which are lower-case words). -/
def isLowAlpha (c : Char) : Bool := 97 ≤ c.toNat && c.toNat ≤ 122

/-- all characters of a pattern are lower-case letters. -/
def allLowAlpha (k : List Char) : Bool := k.all isLowAlpha

theorem isWordChar_of_low {c d : Char} (h : lowChar c = d) (hd : isLowAlpha d = true) :
    isWordChar c = true := by
  unfold lowChar at h
  by_cases hc : (65 ≤ c.toNat && c.toNat ≤ 90) = true
  · unfold isWordChar
    rw [hc]
    simp
  · rw [if_neg hc] at h
    subst h
    unfold isLowAlpha at hd
    unfold isWordChar
    rw [hd]
    simp

theorem lowChar_eq_self_of_lowAlpha {a : Char} (ha : isLowAlpha a = true) :
    lowChar a = a := by
  unfold lowChar
  have ha2 : 97 ≤ a.toNat ∧ a.toNat ≤ 122 := by
    simpa [isLowAlpha] using ha
  rw [if_neg]
  simp only [Bool.and_eq_true, decide_eq_true_eq]
  omega

theorem isWordChar_eq_false_of_space {c : Char} (h : pyIsSpace c = true) :
    isWordChar c = false := by
  simp only [pyIsSpace, Bool.or_eq_true, beq_iff_eq] at h
  rw [Bool.eq_false_iff]
  intro hw
  simp only [isWordChar, Bool.or_eq_true, Bool.and_eq_true, decide_eq_true_eq,
    beq_iff_eq] at hw
  omega

/-! ## Whole-word case-insensitive substitution
(`pytoon/engine_adapters/prompt_builder.py`, `sanitize_prompt`):
`re.sub(r"\b" + re.escape(old) + r"\b", new, result, flags=re.IGNORECASE)`.
All keys consist of letters only, so `re.escape` is the identity on them. -/

/-- case-insensitive literal match of a pattern at the head of a string:
returns the remainder when every pattern character matches up to ASCII case. -/
def matchKey : List Char → List Char → Option (List Char)
  | [], s => some s
  | _ :: _, [] => none
  | a :: ks, c :: cs => if lowChar c == lowChar a then matchKey ks cs else none

theorem matchKey_some_length {k : List Char} :
    ∀ {s r : List Char}, matchKey k s = some r → r.length + k.length = s.length := by
  induction k with
  | nil =>
    intro s r h
    simp only [matchKey, Option.some.injEq] at h
    subst h; simp
  | cons a ks ih =>
    intro s r h
    cases s with
    | nil => simp [matchKey] at h
    | cons c cs =>
      simp only [matchKey] at h
      split at h
      · have := ih h
        simp only [List.length_cons]
        omega
      · exact absurd h (by simp)

/-- boundary check after a whole-word match: end of string or a non-word
character (the trailing `\b` of the pattern). -/
def bAfter : List Char → Bool
  | [] => true
  | c :: _ => !isWordChar c

/-- condition for the regex `\b key \b` to match at the current position
(given the word-character status `prev` of the preceding character). -/
def matchHead (k : List Char) (prev : Bool) (s : List Char) : Bool :=
  match matchKey k s with
  | some rest => !prev && !k.isEmpty && bAfter rest
  | none => false

theorem matchHead_isEmpty_false {k : List Char} {prev : Bool} {s : List Char}
    (h : matchHead k prev s = true) : k.isEmpty = false := by
  unfold matchHead at h
  split at h
  · rcases Bool.and_eq_true .. |>.mp h with ⟨h1, _⟩
    rcases Bool.and_eq_true .. |>.mp h1 with ⟨_, h2⟩
    simpa using h2
  · exact absurd h (by simp)

/-- scan of `re.sub(r"\b key \b", rhs, s, flags=re.IGNORECASE)`: `prev`
records whether the character before the current position is a word
character (the leading `\b` holds exactly when `prev = false`).  After a
match the scan resumes after the matched text (its remainder is
`(c :: t).drop k.length`); the final matched character case-matches the
final letter of the key, hence is a word character, so the flag is `true`
there. -/
def reSubWord (k rhs : List Char) : Bool → List Char → List Char
  | _, [] => []
  | prev, c :: t =>
    if h : matchHead k prev (c :: t) = true then
      rhs ++ reSubWord k rhs true ((c :: t).drop k.length)
    else
      c :: reSubWord k rhs (isWordChar c) t
  termination_by _ s => s.length
  decreasing_by
  · have hk : k.isEmpty = false := matchHead_isEmpty_false h
    have hk1 : 1 ≤ k.length := by
      cases k with
      | nil => simp [List.isEmpty] at hk
      | cons _ _ => simp
    simp only [List.length_drop, List.length_cons]
    omega
  · simp only [List.length_cons]; omega

/-- existence of a whole-word case-insensitive occurrence of `k` at or after
the current position (`prev` as in `reSubWord`). -/
def hasOcc (k : List Char) : Bool → List Char → Bool
  | _, [] => false
  | prev, c :: t => matchHead k prev (c :: t) || hasOcc k (isWordChar c) t

theorem hasOcc_nil (k : List Char) (prev : Bool) : hasOcc k prev [] = false := rfl

theorem hasOcc_cons (k : List Char) (prev : Bool) (c : Char) (t : List Char) :
    hasOcc k prev (c :: t) = (matchHead k prev (c :: t) || hasOcc k (isWordChar c) t) := rfl

theorem reSubWord_nil (k rhs : List Char) (prev : Bool) : reSubWord k rhs prev [] = [] := by
  simp only [reSubWord]

theorem reSubWord_cons_match {k rhs : List Char} {prev : Bool} {c : Char} {t : List Char}
    (hc : matchHead k prev (c :: t) = true) :
    reSubWord k rhs prev (c :: t) = rhs ++ reSubWord k rhs true ((c :: t).drop k.length) := by
  conv_lhs => rw [reSubWord]
  rw [dif_pos hc]

theorem reSubWord_cons_nomatch {k rhs : List Char} {prev : Bool} {c : Char} {t : List Char}
    (hc : matchHead k prev (c :: t) = false) :
    reSubWord k rhs prev (c :: t) = c :: reSubWord k rhs (isWordChar c) t := by
  conv_lhs => rw [reSubWord]
  rw [dif_neg (by simp [hc])]

theorem matchKey_some_drop {k : List Char} :
    ∀ {s r : List Char}, matchKey k s = some r → r = s.drop k.length := by
  induction k with
  | nil =>
    intro s r h
    simp only [matchKey, Option.some.injEq] at h
    subst h; simp
  | cons a ks ih =>
    intro s r h
    cases s with
    | nil => simp [matchKey] at h
    | cons c cs =>
      simp only [matchKey] at h
      split at h
      · simpa using ih h
      · exact absurd h (by simp)

theorem matchKey_cons_none_of_nonword {c : Char} (hc : isWordChar c = false)
    {a : Char} (ha : isLowAlpha a = true) (ks t : List Char) :
    matchKey (a :: ks) (c :: t) = none := by
  simp only [matchKey]
  rw [if_neg]
  intro hEq
  have hEq2 : lowChar c = lowChar a := by simpa using hEq
  rw [lowChar_eq_self_of_lowAlpha ha] at hEq2
  rw [isWordChar_of_low hEq2 ha] at hc
  exact absurd hc (by simp)

theorem matchHead_prev_true (k : List Char) (s : List Char) :
    matchHead k true s = false := by
  unfold matchHead
  split
  · simp
  · rfl

theorem matchHead_true_elim {k : List Char} {prev : Bool} {s : List Char}
    (h : matchHead k prev s = true) :
    prev = false ∧ k.isEmpty = false ∧
      matchKey k s = some (s.drop k.length) ∧ bAfter (s.drop k.length) = true := by
  unfold matchHead at h
  split at h
  · next r hr =>
    rcases Bool.and_eq_true .. |>.mp h with ⟨h1, h3⟩
    rcases Bool.and_eq_true .. |>.mp h1 with ⟨hp, hk⟩
    have hd := matchKey_some_drop hr
    subst hd
    refine ⟨by simpa using hp, by simpa using hk, hr, h3⟩
  · exact absurd h (by simp)

/-- the regex cannot produce a whole-word match starting at this position:
every successful literal match is followed by a word character. -/
def headFail (k s : List Char) : Prop :=
  ∀ r, matchKey k s = some r → bAfter r = false

theorem matchHead_false_of_headFail {k s : List Char} (h : headFail k s) (prev : Bool) :
    matchHead k prev s = false := by
  unfold matchHead
  split
  · next r hr =>
    rw [h r hr]
    simp
  · rfl

theorem headFail_of_matchHead_false {k s : List Char}
    (hm : matchHead k false s = false) (hk0 : k.isEmpty = false) : headFail k s := by
  intro r hr
  unfold matchHead at hm
  rw [hr] at hm
  simpa [hk0] using hm

theorem hasOcc_tail {k : List Char} {prev : Bool} {c : Char} {t : List Char}
    (h : hasOcc k prev (c :: t) = false) : hasOcc k (isWordChar c) t = false := by
  rw [hasOcc_cons] at h
  exact (Bool.or_eq_false_iff.mp h).2

theorem matchHead_false_of_hasOcc_false {k : List Char} {prev : Bool} {s : List Char}
    (h : hasOcc k prev s = false) : matchHead k prev s = false := by
  cases s with
  | nil => unfold matchHead; cases k with
    | nil => simp [matchKey, bAfter]
    | cons a ks => simp [matchKey]
  | cons c t =>
    rw [hasOcc_cons] at h
    exact (Bool.or_eq_false_iff.mp h).1

/-- substitution is the identity on strings with no whole-word occurrence of
the key. -/
theorem reSubWord_id (k rhs : List Char) :
    ∀ n (s : List Char), s.length ≤ n → ∀ prev, hasOcc k prev s = false →
      reSubWord k rhs prev s = s := by
  intro n
  induction n with
  | zero =>
    intro s hs prev _
    have : s = [] := by cases s with
      | nil => rfl
      | cons c t => simp at hs
    subst this
    exact reSubWord_nil ..
  | succ m ih =>
    intro s hs prev hocc
    cases s with
    | nil => exact reSubWord_nil ..
    | cons c t =>
      rw [reSubWord_cons_nomatch (matchHead_false_of_hasOcc_false hocc)]
      rw [ih t (by simp only [List.length_cons] at hs; omega) (isWordChar c)
        (hasOcc_tail hocc)]

/-- a string whose head is a non-word character is copied verbatim at the
head by the scan (the key starts with a letter). -/
theorem matchHead_false_of_nonword_head {k : List Char} (hk : allLowAlpha k = true)
    (hk0 : k ≠ []) {c : Char} (hc : isWordChar c = false) (prev : Bool) (t : List Char) :
    matchHead k prev (c :: t) = false := by
  cases k with
  | nil => exact absurd rfl hk0
  | cons a ks =>
    have ha : isLowAlpha a = true := by
      simp only [allLowAlpha, List.all_cons, Bool.and_eq_true] at hk
      exact hk.1
    unfold matchHead
    rw [matchKey_cons_none_of_nonword hc ha]

/-- scan-copy preservation: while the scan runs with `prev = true` it copies
characters verbatim as long as they case-match letters of a pattern, so a
failed whole-word match of `ks` is preserved by any substitution scan entered
with `prev = true`. -/
theorem headFail_reSubWord_true (kj rhs : List Char) {ks : List Char}
    (hks : allLowAlpha ks = true) :
    ∀ t, headFail ks t → headFail ks (reSubWord kj rhs true t) := by
  induction ks with
  | nil =>
    intro t hf r hr
    simp only [matchKey, Option.some.injEq] at hr
    subst hr
    have hb : bAfter t = false := hf t rfl
    cases t with
    | nil => simp [bAfter] at hb
    | cons c t2 =>
      simp only [bAfter, Bool.not_eq_false] at hb
      rw [reSubWord_cons_nomatch (matchHead_prev_true ..)]
      simpa [bAfter] using hb
  | cons a ks2 ih =>
    intro t hf r hr
    cases t with
    | nil => rw [reSubWord_nil] at hr; simp [matchKey] at hr
    | cons c t2 =>
      rw [reSubWord_cons_nomatch (matchHead_prev_true ..)] at hr
      simp only [matchKey] at hr
      split at hr
      · next hEq =>
        have ha : isLowAlpha a = true := by
          simp only [allLowAlpha, List.all_cons, Bool.and_eq_true] at hks
          exact hks.1
        have hks2 : allLowAlpha ks2 = true := by
          simp only [allLowAlpha, List.all_cons, Bool.and_eq_true] at hks
          exact hks.2
        have hcw : isWordChar c = true := by
          have hEq2 : lowChar c = lowChar a := by simpa using hEq
          rw [lowChar_eq_self_of_lowAlpha ha] at hEq2
          exact isWordChar_of_low hEq2 ha
        rw [hcw] at hr
        have hf2 : headFail ks2 t2 := by
          intro r2 hr2
          apply hf r2
          simp only [matchKey]
          rw [if_pos hEq]
          exact hr2
        exact ih hks2 t2 hf2 r hr
      · exact absurd hr (by simp)

theorem matchKey_append_some {k : List Char} :
    ∀ {xs r : List Char} (b : List Char), matchKey k xs = some r →
      matchKey k (xs ++ b) = some (r ++ b) := by
  induction k with
  | nil =>
    intro xs r b h
    simp only [matchKey, Option.some.injEq] at h
    subst h
    simp [matchKey]
  | cons a ks ih =>
    intro xs r b h
    cases xs with
    | nil => simp [matchKey] at h
    | cons c cs =>
      simp only [matchKey] at h ⊢
      split at h
      · next hEq => rw [if_pos hEq]; exact ih b h
      · exact absurd h (by simp)

theorem matchKey_append_none {k : List Char} (hk : allLowAlpha k = true) (hk0 : k ≠ []) :
    ∀ {xs : List Char} (b : List Char), bAfter b = true → matchKey k xs = none →
      matchKey k (xs ++ b) = none := by
  induction k with
  | nil => exact absurd rfl hk0
  | cons a ks ih =>
    intro xs b hb h
    have ha : isLowAlpha a = true := by
      simp only [allLowAlpha, List.all_cons, Bool.and_eq_true] at hk
      exact hk.1
    cases xs with
    | nil =>
      cases b with
      | nil => simp [matchKey]
      | cons c t =>
        simp only [bAfter, Bool.not_eq_true', Bool.not_eq_false] at hb
        exact matchKey_cons_none_of_nonword (by simpa using hb) ha ks t
    | cons c cs =>
      simp only [matchKey] at h ⊢
      split at h
      · next hEq =>
        rw [if_pos hEq]
        cases ks with
        | nil => simp [matchKey] at h
        | cons a2 ks2 =>
          have hks : allLowAlpha (a2 :: ks2) = true := by
            simp only [allLowAlpha, List.all_cons, Bool.and_eq_true] at hk ⊢
            exact hk.2
          exact ih hks (by simp) b hb h
      · next hEq => rw [if_neg hEq]

theorem headFail_append {k : List Char} (hk : allLowAlpha k = true) (hk0 : k ≠ [])
    {xs : List Char} (b : List Char) (hb : bAfter b = true)
    (h : headFail k xs) : headFail k (xs ++ b) := by
  intro r hr
  cases hxs : matchKey k xs with
  | none => rw [matchKey_append_none hk hk0 b hb hxs] at hr; exact absurd hr (by simp)
  | some r0 =>
    have hb0 : bAfter r0 = false := h r0 hxs
    cases r0 with
    | nil => simp [bAfter] at hb0
    | cons c0 t0 =>
      rw [matchKey_append_some b hxs] at hr
      injection hr with hr
      subst hr
      simpa [bAfter] using hb0

/-- word-character status of the character preceding the position just after
the given list, starting from status `p` (`= p` when the list is empty). -/
def flagEnd (p : Bool) : List Char → Bool
  | [] => p
  | c :: t => flagEnd (isWordChar c) t

/-- occurrence-freedom over an append, when the second part starts at a word
boundary. -/
theorem hasOcc_append {k : List Char} (hk : allLowAlpha k = true) (hk0 : k ≠ [])
    {b : List Char} (hb : bAfter b = true) :
    ∀ (a : List Char) (p : Bool), hasOcc k p a = false →
      hasOcc k (flagEnd p a) b = false → hasOcc k p (a ++ b) = false := by
  intro a
  induction a with
  | nil => intro p _ h2; simpa [flagEnd] using h2
  | cons c a2 ih =>
    intro p h1 h2
    have hm : matchHead k p (c :: a2) = false := matchHead_false_of_hasOcc_false h1
    have ht : hasOcc k (isWordChar c) a2 = false := hasOcc_tail h1
    have hmApp : matchHead k p ((c :: a2) ++ b) = false := by
      cases p with
      | true => exact matchHead_prev_true ..
      | false =>
        exact matchHead_false_of_headFail
          (headFail_append hk hk0 b hb
            (headFail_of_matchHead_false hm (by cases k with
              | nil => exact absurd rfl hk0
              | cons x y => simp [List.isEmpty]))) false
    rw [List.cons_append, hasOcc_cons]
    rw [← List.cons_append, hmApp]
    simp only [Bool.false_or]
    exact ih (isWordChar c) ht (by simpa [flagEnd] using h2)

/-- occurrence-freedom of the remainder after a successful literal match of
a lower-case-letter pattern (the scan flag there is `true`). -/
theorem hasOcc_after_match {kj : List Char} (hkj : allLowAlpha kj = true) (hkj0 : kj ≠ [])
    {k : List Char} :
    ∀ {s rest : List Char} {p : Bool}, matchKey kj s = some rest →
      hasOcc k p s = false → hasOcc k true rest = false := by
  induction kj with
  | nil => exact absurd rfl hkj0
  | cons a ks ih =>
    intro s rest p hm h
    cases s with
    | nil => simp [matchKey] at hm
    | cons c cs =>
      have ha : isLowAlpha a = true := by
        simp only [allLowAlpha, List.all_cons, Bool.and_eq_true] at hkj
        exact hkj.1
      simp only [matchKey] at hm
      split at hm
      · next hEq =>
        have hcw : isWordChar c = true := by
          have hEq2 : lowChar c = lowChar a := by simpa using hEq
          rw [lowChar_eq_self_of_lowAlpha ha] at hEq2
          exact isWordChar_of_low hEq2 ha
        have ht : hasOcc k (isWordChar c) cs = false := hasOcc_tail h
        rw [hcw] at ht
        cases ks with
        | nil =>
          simp only [matchKey, Option.some.injEq] at hm
          subst hm
          exact ht
        | cons a2 ks2 =>
          have hks : allLowAlpha (a2 :: ks2) = true := by
            simp only [allLowAlpha, List.all_cons, Bool.and_eq_true] at hkj ⊢
            exact hkj.2
          exact ih hks (by simp) hm ht
      · exact absurd hm (by simp)

/-- central removal/preservation lemma: applying the whole-word substitution
`kj → rhs` leaves no whole-word occurrence of `k`, provided either `k = kj`
(removal) or the input was already free of `k` (preservation), and `rhs`
is free of `k`, nonempty and ends in a word character. -/
theorem hasOcc_reSubWord {k kj rhs : List Char}
    (hk : allLowAlpha k = true) (hk0 : k ≠ [])
    (hkj : allLowAlpha kj = true) (hkj0 : kj ≠ [])
    (hrW : flagEnd false rhs = true)
    (hrO : hasOcc k false rhs = false) :
    ∀ n (s : List Char), s.length ≤ n → ∀ p, (k = kj ∨ hasOcc k p s = false) →
      hasOcc k p (reSubWord kj rhs p s) = false := by
  intro n
  induction n with
  | zero =>
    intro s hs p _
    have : s = [] := by cases s with
      | nil => rfl
      | cons c t => simp at hs
    subst this
    rw [reSubWord_nil]
    exact hasOcc_nil ..
  | succ m ih =>
    intro s hs p hdisj
    cases s with
    | nil => rw [reSubWord_nil]; exact hasOcc_nil ..
    | cons c t =>
      by_cases hm : matchHead kj p (c :: t) = true
      · obtain ⟨hp, _, hmk, hbr⟩ := matchHead_true_elim hm
        subst hp
        rw [reSubWord_cons_match hm]
        set rest := (c :: t).drop kj.length with hrest
        have hrl : rest.length + kj.length = (c :: t).length := by
          have := matchKey_some_length hmk
          simpa [hrest] using this
        have hkj1 : 1 ≤ kj.length := by
          cases kj with
          | nil => exact absurd rfl hkj0
          | cons _ _ => simp
        have hrestLe : rest.length ≤ m := by
          simp only [List.length_cons] at hrl hs
          omega
        have hIHrest : hasOcc k true (reSubWord kj rhs true rest) = false := by
          apply ih rest hrestLe true
          rcases hdisj with hEq | hfree
          · exact Or.inl hEq
          · exact Or.inr (hasOcc_after_match hkj hkj0 hmk hfree)
        have hbOut : bAfter (reSubWord kj rhs true rest) = true := by
          rcases hR : rest with _ | ⟨r0, t0⟩
          · rw [reSubWord_nil]; rfl
          · rw [hR] at hbr
            rw [reSubWord_cons_nomatch (matchHead_prev_true ..)]
            simpa [bAfter] using hbr
        exact hasOcc_append hk hk0 hbOut rhs false hrO (by rwa [hrW])
      · have hm2 : matchHead kj p (c :: t) = false := by
          cases h2 : matchHead kj p (c :: t) with
          | true => exact absurd h2 hm
          | false => rfl
        rw [reSubWord_cons_nomatch hm2]
        have hIHt : hasOcc k (isWordChar c) (reSubWord kj rhs (isWordChar c) t) = false := by
          apply ih t (by simp only [List.length_cons] at hs; omega) (isWordChar c)
          rcases hdisj with hEq | hfree
          · exact Or.inl hEq
          · exact Or.inr (hasOcc_tail hfree)
        rw [hasOcc_cons]
        simp only [Bool.or_eq_false_iff]
        refine ⟨?_, hIHt⟩
        cases p with
        | true => exact matchHead_prev_true ..
        | false =>
          have hff : headFail k (c :: t) := by
            rcases hdisj with hEq | hfree
            · subst hEq
              exact headFail_of_matchHead_false hm2 (by cases k with
                | nil => exact absurd rfl hk0
                | cons x y => simp [List.isEmpty])
            · exact headFail_of_matchHead_false (matchHead_false_of_hasOcc_false hfree)
                (by cases k with
                  | nil => exact absurd rfl hk0
                  | cons x y => simp [List.isEmpty])
          apply matchHead_false_of_headFail
          intro r hr
          cases k with
          | nil => exact absurd rfl hk0
          | cons k0 k2 =>
            have hk02 : isLowAlpha k0 = true ∧ allLowAlpha k2 = true := by
              simp only [allLowAlpha, List.all_cons, Bool.and_eq_true] at hk
              exact hk
            simp only [matchKey] at hr
            split at hr
            · next hEq =>
              have hcw : isWordChar c = true := by
                have hEq2 : lowChar c = lowChar k0 := by simpa using hEq
                rw [lowChar_eq_self_of_lowAlpha hk02.1] at hEq2
                exact isWordChar_of_low hEq2 hk02.1
              have hff2 : headFail k2 t := by
                intro r2 hr2
                apply hff r2
                simp only [matchKey]
                rw [if_pos hEq]
                exact hr2
              have := headFail_reSubWord_true kj rhs hk02.2 t hff2
              rw [hcw] at hr
              exact this r hr
            · exact absurd hr (by simp)

/-! ## Whitespace collapse and strip
(`sanitize_prompt`: the final `re.sub(r"\s{2,}", " ", result).strip()`). -/

theorem dropWhileLenLe (p : Char → Bool) (l : List Char) :
    (l.dropWhile p).length ≤ l.length := by
  induction l with
  | nil => simp
  | cons c t ih =>
    rw [List.dropWhile_cons]
    by_cases hp : p c = true
    · rw [if_pos hp]
      simp only [List.length_cons]
      omega
    · rw [if_neg hp]

/-- scan of `re.sub(r"\s{2,}", " ", s)`: a maximal run of at least two
whitespace characters is replaced by a single space (the regex is greedy, so
the whole run is consumed). -/
def collapseSpaces : List Char → List Char
  | [] => []
  | [c] => [c]
  | c :: d :: t =>
    if pyIsSpace c && pyIsSpace d then
      ' ' :: collapseSpaces (t.dropWhile pyIsSpace)
    else
      c :: collapseSpaces (d :: t)
  termination_by s => s.length
  decreasing_by
  · have hdw := dropWhileLenLe pyIsSpace t
    simp only [List.length_cons]
    omega
  · simp only [List.length_cons]
    omega

theorem collapseSpaces_cons_nospace {c : Char} (hc : pyIsSpace c = false) (t : List Char) :
    collapseSpaces (c :: t) = c :: collapseSpaces t := by
  cases t with
  | nil => simp only [collapseSpaces]
  | cons d t2 =>
    conv_lhs => rw [collapseSpaces]
    rw [if_neg (by simp [hc])]

/-- the result of `collapseSpaces` on a nonempty list is nonempty, and its
head is the original head or a space standing for a collapsed space run. -/
theorem collapseSpaces_head (x : Char) (l : List Char) :
    ∃ h r, collapseSpaces (x :: l) = h :: r ∧
      (h = x ∨ (h = ' ' ∧ pyIsSpace x = true)) := by
  cases l with
  | nil => exact ⟨x, [], by simp only [collapseSpaces], Or.inl rfl⟩
  | cons d t =>
    by_cases hc : (pyIsSpace x && pyIsSpace d) = true
    · refine ⟨' ', collapseSpaces (t.dropWhile pyIsSpace), ?_, ?_⟩
      · conv_lhs => rw [collapseSpaces]
        rw [if_pos hc]
      · exact Or.inr ⟨rfl, (Bool.and_eq_true .. |>.mp hc).1⟩
    · refine ⟨x, collapseSpaces (d :: t), ?_, Or.inl rfl⟩
      conv_lhs => rw [collapseSpaces]
      rw [if_neg hc]

/-- absence of two adjacent whitespace characters. -/
def noAdjSpace : List Char → Bool
  | [] => true
  | [_] => true
  | c :: d :: t => !(pyIsSpace c && pyIsSpace d) && noAdjSpace (d :: t)

theorem noAdjSpace_tail {c : Char} {t : List Char} (h : noAdjSpace (c :: t) = true) :
    noAdjSpace t = true := by
  cases t with
  | nil => rfl
  | cons d t2 =>
    simp only [noAdjSpace, Bool.and_eq_true] at h
    exact h.2

theorem noAdjSpace_dropWhile {s : List Char} (h : noAdjSpace s = true) (p : Char → Bool) :
    noAdjSpace (s.dropWhile p) = true := by
  induction s with
  | nil => exact h
  | cons c t ih =>
    rw [List.dropWhile_cons]
    by_cases hp : p c = true
    · rw [if_pos hp]
      exact ih (noAdjSpace_tail h)
    · rw [if_neg hp]
      exact h

theorem noAdjSpace_take : ∀ (s : List Char), noAdjSpace s = true →
    ∀ n, noAdjSpace (s.take n) = true := by
  intro s
  induction s with
  | nil => intro _ n; simp [noAdjSpace]
  | cons c t ih =>
    intro h n
    cases n with
    | zero => simp [noAdjSpace]
    | succ m =>
      rw [List.take_succ_cons]
      cases t with
      | nil => simp [noAdjSpace]
      | cons d t2 =>
        cases m with
        | zero => simp [noAdjSpace]
        | succ m2 =>
          simp only [noAdjSpace, Bool.and_eq_true] at h
          have ih2 := ih h.2 (m2 + 1)
          rw [List.take_succ_cons] at ih2
          rw [List.take_succ_cons]
          simp only [noAdjSpace, Bool.and_eq_true]
          exact ⟨h.1, ih2⟩

theorem dropWhile_head_false {p : Char → Bool} {s : List Char} :
    ∀ c t, s.dropWhile p = c :: t → p c = false := by
  induction s with
  | nil => intro c t h; simp at h
  | cons x xs ih =>
    intro c t h
    rw [List.dropWhile_cons] at h
    by_cases hp : p x = true
    · rw [if_pos hp] at h
      exact ih c t h
    · rw [if_neg hp] at h
      injection h with h1 _
      subst h1
      simpa using hp

theorem collapseSpaces_noAdj_aux : ∀ (n : ℕ) (s : List Char), s.length ≤ n →
    noAdjSpace (collapseSpaces s) = true := by
  intro n
  induction n with
  | zero =>
    intro s hs
    have hnil : s = [] := by cases s with
      | nil => rfl
      | cons c t => simp at hs
    subst hnil
    simp [collapseSpaces, noAdjSpace]
  | succ m ih =>
    intro s hs
    cases s with
    | nil => simp [collapseSpaces, noAdjSpace]
    | cons c t =>
      cases t with
      | nil => simp [collapseSpaces, noAdjSpace]
      | cons d t2 =>
        by_cases hc : (pyIsSpace c && pyIsSpace d) = true
        · conv_lhs => rw [collapseSpaces]
          rw [if_pos hc]
          have hrl : (t2.dropWhile pyIsSpace).length ≤ m := by
            have := dropWhileLenLe pyIsSpace t2
            simp only [List.length_cons] at hs
            omega
          have hrec := ih (t2.dropWhile pyIsSpace) hrl
          rcases hR : t2.dropWhile pyIsSpace with _ | ⟨r0, r1⟩
          · simp [collapseSpaces, noAdjSpace]
          · rw [hR] at hrec
            obtain ⟨h0, rr, hEq, hOr⟩ := collapseSpaces_head r0 r1
            rw [hEq] at hrec ⊢
            have hr0 : pyIsSpace r0 = false := dropWhile_head_false r0 r1 hR
            have hh0 : pyIsSpace h0 = false := by
              rcases hOr with hx | ⟨_, hsp⟩
              · rwa [hx]
              · rw [hsp] at hr0
                exact absurd hr0 (by simp)
            simp only [noAdjSpace, Bool.and_eq_true]
            exact ⟨by simp [hh0], hrec⟩
        · conv_lhs => rw [collapseSpaces]
          rw [if_neg hc]
          have hrec := ih (d :: t2) (by simp only [List.length_cons] at hs ⊢; omega)
          obtain ⟨h0, rr, hEq, hOr⟩ := collapseSpaces_head d t2
          rw [hEq] at hrec ⊢
          have hnb : (pyIsSpace c && pyIsSpace h0) = false := by
            rcases hOr with hx | ⟨hh, hsp⟩
            · rw [hx]
              cases hq : (pyIsSpace c && pyIsSpace d) with
              | false => rfl
              | true => exact absurd hq hc
            · subst hh
              cases hcs : pyIsSpace c with
              | false => simp
              | true =>
                rw [hcs, hsp] at hc
                exact absurd (by decide : (true && pyIsSpace ' ') = true) hc
          simp only [noAdjSpace, Bool.and_eq_true]
          exact ⟨by simp [hnb], hrec⟩

theorem collapseSpaces_noAdj (s : List Char) : noAdjSpace (collapseSpaces s) = true :=
  collapseSpaces_noAdj_aux s.length s le_rfl

theorem collapseSpaces_id_of_noAdj : ∀ (n : ℕ) (s : List Char), s.length ≤ n →
    noAdjSpace s = true → collapseSpaces s = s := by
  intro n
  induction n with
  | zero =>
    intro s hs _
    have hnil : s = [] := by cases s with
      | nil => rfl
      | cons c t => simp at hs
    subst hnil
    simp [collapseSpaces]
  | succ m ih =>
    intro s hs h
    cases s with
    | nil => simp [collapseSpaces]
    | cons c t =>
      cases t with
      | nil => simp [collapseSpaces]
      | cons d t2 =>
        simp only [noAdjSpace, Bool.and_eq_true] at h
        have hcf : (pyIsSpace c && pyIsSpace d) = false := by
          rw [Bool.not_eq_true'] at h
          exact h.1
        conv_lhs => rw [collapseSpaces]
        rw [if_neg (by simp [hcf])]
        rw [ih (d :: t2) (by simp only [List.length_cons] at hs ⊢; omega) h.2]

/-- removal of trailing whitespace (right half of `str.strip`). -/
def stripEnd : List Char → List Char
  | [] => []
  | c :: t => if pyIsSpace c && (stripEnd t).isEmpty then [] else c :: stripEnd t

/-- left half of `str.strip` composed with the right half. -/
def pyStrip (s : List Char) : List Char := (stripEnd s).dropWhile pyIsSpace

theorem stripEnd_eq_take (s : List Char) : ∃ n, stripEnd s = s.take n := by
  induction s with
  | nil => exact ⟨0, rfl⟩
  | cons c t ih =>
    obtain ⟨n, hn⟩ := ih
    by_cases hc : (pyIsSpace c && (stripEnd t).isEmpty) = true
    · refine ⟨0, ?_⟩
      rw [stripEnd, if_pos hc]
      simp
    · refine ⟨n + 1, ?_⟩
      rw [stripEnd, if_neg hc, List.take_succ_cons, hn]

theorem stripEnd_getLast_no_space (s : List Char) :
    ∀ c, (stripEnd s).getLast? = some c → pyIsSpace c = false := by
  induction s with
  | nil => intro c h; simp [stripEnd] at h
  | cons x t ih =>
    intro c h
    by_cases hc : (pyIsSpace x && (stripEnd t).isEmpty) = true
    · rw [stripEnd, if_pos hc] at h
      simp at h
    · rw [stripEnd, if_neg hc] at h
      rcases hse : stripEnd t with _ | ⟨y, ys⟩
      · rw [hse] at h
        rw [hse] at hc
        simp only [List.isEmpty_nil, Bool.and_true] at hc
        simp only [List.getLast?_singleton, Option.some.injEq] at h
        subst h
        cases hq : pyIsSpace x with
        | false => rfl
        | true => exact absurd hq hc
      · rw [hse] at h
        rw [List.getLast?_cons_cons] at h
        rw [← hse] at h
        exact ih c h

theorem stripEnd_id_of_no_trailing (s : List Char)
    (h : ∀ c, s.getLast? = some c → pyIsSpace c = false) : stripEnd s = s := by
  induction s with
  | nil => rfl
  | cons x t ih =>
    cases t with
    | nil =>
      have hx : pyIsSpace x = false := h x rfl
      rw [stripEnd, if_neg (by simp [hx])]
      rfl
    | cons y ys =>
      have ht : stripEnd (y :: ys) = y :: ys := by
        apply ih
        intro c hc
        apply h c
        rw [List.getLast?_cons_cons]
        exact hc
      rw [stripEnd, if_neg (by simp [ht])]
      rw [ht]

theorem dropWhile_id_of_head {p : Char → Bool} {s : List Char}
    (h : ∀ c t, s = c :: t → p c = false) : s.dropWhile p = s := by
  cases s with
  | nil => rfl
  | cons c t =>
    rw [List.dropWhile_cons, if_neg (by simp [h c t rfl])]

theorem getLast_of_dropWhile {p : Char → Bool} (s : List Char) :
    ∀ c, (s.dropWhile p).getLast? = some c → s.getLast? = some c := by
  induction s with
  | nil => intro c h; simp at h
  | cons x t ih =>
    intro c h
    rw [List.dropWhile_cons] at h
    by_cases hp : p x = true
    · rw [if_pos hp] at h
      have := ih c h
      cases t with
      | nil => simp at this
      | cons y ys =>
        rw [List.getLast?_cons_cons]
        exact this
    · rw [if_neg hp] at h
      exact h

theorem pyStrip_getLast_no_space (s : List Char) :
    ∀ c, (pyStrip s).getLast? = some c → pyIsSpace c = false := by
  intro c h
  exact stripEnd_getLast_no_space s c (getLast_of_dropWhile (stripEnd s) c h)

theorem pyStrip_head_no_space (s : List Char) :
    ∀ c t, pyStrip s = c :: t → pyIsSpace c = false := by
  intro c t h
  exact dropWhile_head_false c t h

theorem pyStrip_idem (s : List Char) : pyStrip (pyStrip s) = pyStrip s := by
  unfold pyStrip
  rw [stripEnd_id_of_no_trailing ((stripEnd s).dropWhile pyIsSpace)
    (pyStrip_getLast_no_space s)]
  rw [dropWhile_id_of_head]
  intro c t h
  exact dropWhile_head_false c t h

theorem noAdjSpace_stripEnd {s : List Char} (h : noAdjSpace s = true) :
    noAdjSpace (stripEnd s) = true := by
  obtain ⟨n, hn⟩ := stripEnd_eq_take s
  rw [hn]
  exact noAdjSpace_take s h n

theorem noAdjSpace_pyStrip {s : List Char} (h : noAdjSpace s = true) :
    noAdjSpace (pyStrip s) = true :=
  noAdjSpace_dropWhile (noAdjSpace_stripEnd h) pyIsSpace

theorem word_not_space {c : Char} (h : isWordChar c = true) : pyIsSpace c = false := by
  cases hq : pyIsSpace c with
  | false => rfl
  | true =>
    rw [isWordChar_eq_false_of_space hq] at h
    exact absurd h (by simp)

/-- a failed whole-word match at the head survives a transformation of the
tail that preserves failed matches. -/
theorem headFail_cons_of {k : List Char} (hk : allLowAlpha k = true) {c : Char}
    {t X : List Char} (hff : headFail k (c :: t))
    (hT : ∀ ks2, allLowAlpha ks2 = true → headFail ks2 t → headFail ks2 X) :
    headFail k (c :: X) := by
  intro r hr
  cases k with
  | nil =>
    simp only [matchKey, Option.some.injEq] at hr
    subst hr
    have hb := hff (c :: t) rfl
    simpa [bAfter] using hb
  | cons k0 k2 =>
    have hk0 : isLowAlpha k0 = true ∧ allLowAlpha k2 = true := by
      simpa [allLowAlpha] using hk
    simp only [matchKey] at hr
    split at hr
    · next hEq =>
      have hff2 : headFail k2 t := by
        intro r2 hr2
        apply hff r2
        simp only [matchKey]
        rw [if_pos hEq]
        exact hr2
      exact hT k2 hk0.2 hff2 r hr
    · exact absurd hr (by simp)

theorem headFail_collapse : ∀ (ks : List Char), allLowAlpha ks = true →
    ∀ t, headFail ks t → headFail ks (collapseSpaces t) := by
  intro ks
  induction ks with
  | nil =>
    intro _ t hf r hr
    simp only [matchKey, Option.some.injEq] at hr
    subst hr
    have hb : bAfter t = false := hf t rfl
    cases t with
    | nil => simp [bAfter] at hb
    | cons c t2 =>
      have hbw : isWordChar c = true := by simpa [bAfter] using hb
      rw [collapseSpaces_cons_nospace (word_not_space hbw)]
      simpa [bAfter] using hbw
  | cons a ks2 ih =>
    intro hks t hf r hr
    have ha : isLowAlpha a = true ∧ allLowAlpha ks2 = true := by
      simpa [allLowAlpha] using hks
    cases t with
    | nil =>
      simp only [collapseSpaces] at hr
      simp [matchKey] at hr
    | cons c t2 =>
      by_cases hsp : pyIsSpace c = true
      · obtain ⟨h0, rr, hEq, hOr⟩ := collapseSpaces_head c t2
        rw [hEq] at hr
        have hh0 : pyIsSpace h0 = true := by
          rcases hOr with hx | ⟨hx, _⟩
          · rwa [hx]
          · rw [hx]; decide
        rw [matchKey_cons_none_of_nonword (isWordChar_eq_false_of_space hh0) ha.1] at hr
        exact absurd hr (by simp)
      · rw [collapseSpaces_cons_nospace (by simpa using hsp)] at hr
        simp only [matchKey] at hr
        split at hr
        · next hEq =>
          have hf2 : headFail ks2 t2 := by
            intro r2 hr2
            apply hf r2
            simp only [matchKey]
            rw [if_pos hEq]
            exact hr2
          exact ih ha.2 t2 hf2 r hr
        · exact absurd hr (by simp)

theorem hasOcc_dropWhile_space {k : List Char} : ∀ {s : List Char},
    hasOcc k false s = false → hasOcc k false (s.dropWhile pyIsSpace) = false := by
  intro s
  induction s with
  | nil => intro h; exact h
  | cons c t ih =>
    intro h
    rw [List.dropWhile_cons]
    by_cases hp : pyIsSpace c = true
    · rw [if_pos hp]
      apply ih
      have ht := hasOcc_tail h
      rwa [isWordChar_eq_false_of_space hp] at ht
    · rw [if_neg hp]
      exact h

theorem kNotEmpty {k : List Char} (hk0 : k ≠ []) : k.isEmpty = false := by
  cases k with
  | nil => exact absurd rfl hk0
  | cons x y => simp [List.isEmpty]

theorem hasOcc_collapse {k : List Char} (hk : allLowAlpha k = true) (hk0 : k ≠ []) :
    ∀ (n : ℕ) (s : List Char), s.length ≤ n → ∀ p, hasOcc k p s = false →
      hasOcc k p (collapseSpaces s) = false := by
  intro n
  induction n with
  | zero =>
    intro s hs p h
    have hnil : s = [] := by cases s with
      | nil => rfl
      | cons c t => simp at hs
    subst hnil
    simpa only [collapseSpaces] using h
  | succ m ih =>
    intro s hs p h
    cases s with
    | nil => simpa only [collapseSpaces] using h
    | cons c t =>
      cases t with
      | nil => simpa only [collapseSpaces] using h
      | cons d t2 =>
        by_cases hc : (pyIsSpace c && pyIsSpace d) = true
        · have hc2 := Bool.and_eq_true .. |>.mp hc
          conv_lhs => rw [collapseSpaces]
          rw [if_pos hc]
          rw [hasOcc_cons]
          have hX : hasOcc k false (collapseSpaces (t2.dropWhile pyIsSpace)) = false := by
            have h1 := hasOcc_tail h
            rw [isWordChar_eq_false_of_space hc2.1] at h1
            have h2 := hasOcc_tail h1
            rw [isWordChar_eq_false_of_space hc2.2] at h2
            apply ih (t2.dropWhile pyIsSpace) ?_ false (hasOcc_dropWhile_space h2)
            have := dropWhileLenLe pyIsSpace t2
            simp only [List.length_cons] at hs
            omega
          rw [matchHead_false_of_nonword_head hk hk0 (by decide) p]
          rw [(by decide : isWordChar ' ' = false)]
          simpa using hX
        · conv_lhs => rw [collapseSpaces]
          rw [if_neg hc]
          rw [hasOcc_cons]
          have hX : hasOcc k (isWordChar c) (collapseSpaces (d :: t2)) = false := by
            apply ih (d :: t2) ?_ (isWordChar c) (hasOcc_tail h)
            simp only [List.length_cons] at hs ⊢
            omega
          have hmh : matchHead k p (c :: collapseSpaces (d :: t2)) = false := by
            cases p with
            | true => exact matchHead_prev_true ..
            | false =>
              apply matchHead_false_of_headFail
              apply headFail_cons_of hk
              · exact headFail_of_matchHead_false (matchHead_false_of_hasOcc_false h)
                  (kNotEmpty hk0)
              · intro ks2 hks2 hf2
                exact headFail_collapse ks2 hks2 (d :: t2) hf2
          rw [hmh]
          simpa using hX

theorem headFail_stripEnd : ∀ (ks : List Char), allLowAlpha ks = true →
    ∀ t, headFail ks t → headFail ks (stripEnd t) := by
  intro ks
  induction ks with
  | nil =>
    intro _ t hf r hr
    simp only [matchKey, Option.some.injEq] at hr
    subst hr
    have hb : bAfter t = false := hf t rfl
    cases t with
    | nil => simp [bAfter] at hb
    | cons c t2 =>
      have hbw : isWordChar c = true := by simpa [bAfter] using hb
      rw [stripEnd, if_neg (by simp [word_not_space hbw])]
      simpa [bAfter] using hbw
  | cons a ks2 ih =>
    intro hks t hf r hr
    have ha : isLowAlpha a = true ∧ allLowAlpha ks2 = true := by
      simpa [allLowAlpha] using hks
    cases t with
    | nil =>
      simp only [stripEnd] at hr
      simp [matchKey] at hr
    | cons c t2 =>
      by_cases hcond : (pyIsSpace c && (stripEnd t2).isEmpty) = true
      · rw [stripEnd, if_pos hcond] at hr
        simp [matchKey] at hr
      · rw [stripEnd, if_neg hcond] at hr
        simp only [matchKey] at hr
        split at hr
        · next hEq =>
          have hf2 : headFail ks2 t2 := by
            intro r2 hr2
            apply hf r2
            simp only [matchKey]
            rw [if_pos hEq]
            exact hr2
          exact ih ha.2 t2 hf2 r hr
        · exact absurd hr (by simp)

theorem hasOcc_stripEnd {k : List Char} (hk : allLowAlpha k = true) (hk0 : k ≠ []) :
    ∀ (s : List Char) (p : Bool), hasOcc k p s = false →
      hasOcc k p (stripEnd s) = false := by
  intro s
  induction s with
  | nil => intro p h; exact h
  | cons c t ih =>
    intro p h
    by_cases hcond : (pyIsSpace c && (stripEnd t).isEmpty) = true
    · rw [stripEnd, if_pos hcond]
      exact hasOcc_nil ..
    · rw [stripEnd, if_neg hcond]
      rw [hasOcc_cons]
      have hX := ih (isWordChar c) (hasOcc_tail h)
      have hmh : matchHead k p (c :: stripEnd t) = false := by
        cases p with
        | true => exact matchHead_prev_true ..
        | false =>
          apply matchHead_false_of_headFail
          apply headFail_cons_of hk
          · exact headFail_of_matchHead_false (matchHead_false_of_hasOcc_false h)
              (kNotEmpty hk0)
          · intro ks2 hks2 hf2
            exact headFail_stripEnd ks2 hks2 t hf2
      rw [hmh]
      simpa using hX

theorem hasOcc_pyStrip {k : List Char} (hk : allLowAlpha k = true) (hk0 : k ≠ [])
    {s : List Char} (h : hasOcc k false s = false) :
    hasOcc k false (pyStrip s) = false :=
  hasOcc_dropWhile_space (hasOcc_stripEnd hk hk0 s false h)

/-! ## The default substitution table and `sanitize_prompt`
(`pytoon/engine_adapters/prompt_builder.py`).  With no `config/engine.yaml`
file in the repository, `get_engine_config()` returns `{}`, so the configured
blocklist is empty and the substitution map is exactly
`_DEFAULT_SUBSTITUTIONS`, applied in insertion order. -/

def defaultSubstitutions : List (List Char × List Char) :=
  [("shoot".toList, "film".toList),
   ("shooting".toList, "filming".toList),
   ("explode".toList, "burst open".toList),
   ("explosion".toList, "dynamic burst".toList),
   ("kill".toList, "eliminate".toList),
   ("weapon".toList, "tool".toList),
   ("gun".toList, "device".toList),
   ("blood".toList, "red liquid".toList),
   ("violent".toList, "intense".toList),
   ("nude".toList, "exposed".toList),
   ("naked".toList, "unclothed".toList)]

/-- blocklist from configuration (empty: `config/engine.yaml` is absent). -/
def configBlocklist : List (List Char) := []

/-- removal of blocklisted terms: `pattern.sub("", result)` for each term,
whole-word and case-insensitive. -/
def applyBlocklist (s : List Char) : List Char :=
  configBlocklist.foldl (fun acc term => reSubWord term [] false acc) s

/-- application of the substitution map in insertion order. -/
def applySubs (s : List Char) : List Char :=
  defaultSubstitutions.foldl (fun acc q => reSubWord q.1 q.2 false acc) s

/-- embedding of `sanitize_prompt` under the default configuration:
blocklist removal, substitutions, whitespace collapse, strip. -/
def sanitizePrompt (s : List Char) : List Char :=
  pyStrip (collapseSpaces (applySubs (applyBlocklist s)))

/-- well-formedness of the substitution table: every key is a nonempty
lower-case word, every replacement is nonempty, ends in a word character and
contains no whole-word occurrence of any key. -/
theorem defaultSubstitutions_wf :
    defaultSubstitutions.all (fun q =>
      allLowAlpha q.1 && !q.1.isEmpty && flagEnd false q.2 &&
        (defaultSubstitutions.all (fun q2 => !hasOcc q2.1 false q.2))) = true := by
  decide

theorem defaultSubstitutions_cond : ∀ kp ∈ defaultSubstitutions,
    allLowAlpha kp.1 = true ∧ kp.1 ≠ [] ∧ flagEnd false kp.2 = true ∧
      ∀ q ∈ defaultSubstitutions, hasOcc q.1 false kp.2 = false := by
  intro kp hmem
  have hwf := defaultSubstitutions_wf
  rw [List.all_eq_true] at hwf
  have hx := hwf kp hmem
  simp only [Bool.and_eq_true, Bool.not_eq_true', List.all_eq_true] at hx
  obtain ⟨⟨⟨h1, h2⟩, h3⟩, h4⟩ := hx
  refine ⟨h1, ?_, h3, ?_⟩
  · intro hn
    rw [hn] at h2
    simp [List.isEmpty] at h2
  · intro q hq
    have hy := h4 q hq
    simpa using hy

/-- occurrence-freedom of every listed key after a fold of whole-word
substitutions: a key occurrence is removed at its own step and no later step
reintroduces it. -/
theorem hasOcc_foldl_subs {k : List Char} (hk : allLowAlpha k = true) (hk0 : k ≠ []) :
    ∀ (l : List (List Char × List Char)) (s : List Char),
      (∀ q ∈ l, allLowAlpha q.1 = true ∧ q.1 ≠ [] ∧ flagEnd false q.2 = true ∧
        hasOcc k false q.2 = false) →
      ((∃ q ∈ l, q.1 = k) ∨ hasOcc k false s = false) →
      hasOcc k false (l.foldl (fun acc q => reSubWord q.1 q.2 false acc) s) = false := by
  intro l
  induction l with
  | nil =>
    intro s _ hdisj
    rcases hdisj with ⟨q, hq, _⟩ | h
    · exact absurd hq (by simp)
    · exact h
  | cons q0 l2 ih =>
    intro s hwf hdisj
    rw [List.foldl_cons]
    obtain ⟨hw1, hw2, hw3, hw4⟩ := hwf q0 (by simp)
    apply ih
    · intro q hq
      exact hwf q (by simp [hq])
    · rcases hdisj with ⟨q, hq, hqk⟩ | hfree
      · rcases List.mem_cons.mp hq with hq0 | hql2
        · subst hq0
          refine Or.inr ?_
          apply hasOcc_reSubWord hk hk0 hw1 hw2 hw3 hw4 s.length s le_rfl false
          exact Or.inl hqk.symm
        · exact Or.inl ⟨q, hql2, hqk⟩
      · refine Or.inr ?_
        apply hasOcc_reSubWord hk hk0 hw1 hw2 hw3 hw4 s.length s le_rfl false
        exact Or.inr hfree

theorem hasOcc_applySubs (kp : List Char × List Char) (hmem : kp ∈ defaultSubstitutions)
    (s : List Char) : hasOcc kp.1 false (applySubs s) = false := by
  obtain ⟨h1, h2, _, _⟩ := defaultSubstitutions_cond kp hmem
  apply hasOcc_foldl_subs h1 h2
  · intro q hq
    obtain ⟨g1, g2, g3, g4⟩ := defaultSubstitutions_cond q hq
    exact ⟨g1, g2, g3, (defaultSubstitutions_cond q hq).2.2.2 kp hmem⟩
  · exact Or.inl ⟨kp, hmem, rfl⟩

/-- a fold of whole-word substitutions is the identity on a string free of
occurrences of every key. -/
theorem applySubs_id {s : List Char}
    (h : ∀ q ∈ defaultSubstitutions, hasOcc q.1 false s = false) :
    applySubs s = s := by
  unfold applySubs
  generalize hl : defaultSubstitutions = l at h
  clear hl
  induction l with
  | nil => rfl
  | cons q l2 ih =>
    rw [List.foldl_cons]
    rw [reSubWord_id q.1 q.2 s.length s le_rfl false (h q (by simp))]
    exact ih (fun q2 hq2 => h q2 (by simp [hq2]))

/-- C7: prompt sanitization is idempotent under the default blocklist and
substitution configuration: `sanitize_prompt(sanitize_prompt(p)) =
sanitize_prompt(p)` for every prompt `p`. -/
theorem sanitize_prompt_idempotent (p : List Char) :
    sanitizePrompt (sanitizePrompt p) = sanitizePrompt p := by
  have hbl : ∀ s : List Char, applyBlocklist s = s := fun _ => rfl
  unfold sanitizePrompt
  rw [hbl, hbl]
  set y := applySubs p with hy
  set z := pyStrip (collapseSpaces y) with hz
  have hfree : ∀ q ∈ defaultSubstitutions, hasOcc q.1 false z = false := by
    intro q hq
    obtain ⟨g1, g2, _, _⟩ := defaultSubstitutions_cond q hq
    rw [hz]
    apply hasOcc_pyStrip g1 g2
    apply hasOcc_collapse g1 g2 y.length y le_rfl false
    rw [hy]
    exact hasOcc_applySubs q hq p
  rw [applySubs_id hfree]
  have hnadj : noAdjSpace z = true := by
    rw [hz]
    exact noAdjSpace_pyStrip (collapseSpaces_noAdj y)
  rw [collapseSpaces_id_of_noAdj z.length z le_rfl hnadj]
  rw [hz]
  exact pyStrip_idem (collapseSpaces y)

/-! ## Scene Graph data model (`pytoon/scene_graph/models.py`).
Enums become inductives with their JSON string `value`; model-validator
checks become the Boolean validity predicates below. -/

inductive MediaType
  | image
  | video
  deriving DecidableEq, Repr

inductive EngineId
  | runway
  | pika
  | luma
  | localEngine
  deriving DecidableEq, Repr

def EngineId.value : EngineId → List Char
  | .runway => "runway".toList
  | .pika => "pika".toList
  | .luma => "luma".toList
  | .localEngine => "local".toList

inductive VisualEffect
  | kenBurnsZoom
  | kenBurnsPan
  | slowZoomIn
  | slowZoomOut
  | staticEffect
  deriving DecidableEq, Repr

def VisualEffect.value : VisualEffect → List Char
  | .kenBurnsZoom => "ken_burns_zoom".toList
  | .kenBurnsPan => "ken_burns_pan".toList
  | .slowZoomIn => "slow_zoom_in".toList
  | .slowZoomOut => "slow_zoom_out".toList
  | .staticEffect => "static".toList

inductive TransitionType
  | cut
  | fade
  | fadeBlack
  | swipeLeft
  | swipeRight
  deriving DecidableEq, Repr

inductive OverlayType
  | productImage
  | logo
  | textOverlay
  | graphic
  deriving DecidableEq, Repr

inductive OverlayPosition
  | center
  | topLeft
  | topRight
  | bottomLeft
  | bottomRight
  | custom
  deriving DecidableEq, Repr

structure SceneOverlay where
  type : OverlayType
  asset : List Char
  position : OverlayPosition
  scale : ℚ
  opacity : ℚ
  deriving DecidableEq, Repr

structure SceneMedia where
  type : MediaType
  asset : Option (List Char)
  engine : Option EngineId
  prompt : Option (List Char)
  effect : Option VisualEffect
  deriving DecidableEq, Repr

structure SceneStyle where
  mood : Option (List Char)
  cameraMotion : Option (List Char)
  lighting : Option (List Char)
  deriving DecidableEq, Repr

structure Scene where
  id : Int
  description : List Char
  duration : Int
  media : SceneMedia
  caption : List Char
  audio : Option (List Char)
  style : SceneStyle
  overlays : List SceneOverlay
  transition : TransitionType
  deriving DecidableEq, Repr

structure GlobalAudio where
  voiceScript : Option (List Char)
  voiceFile : Option (List Char)
  backgroundMusic : Option (List Char)
  deriving DecidableEq, Repr

structure SceneGraph where
  version : List Char
  scenes : List Scene
  globalAudio : GlobalAudio
  deriving DecidableEq, Repr

/-- `SceneMedia._validate_engine_prompt`. -/
def sceneMediaValid (m : SceneMedia) : Bool :=
  (!m.engine.isSome || m.prompt.isSome) &&
    (!(m.type == MediaType.video) || m.engine.isSome || m.asset.isSome || m.prompt.isSome)

/-- field constraints of `Scene` (pydantic `Field` bounds). -/
def sceneValid (s : Scene) : Bool :=
  (1 ≤ s.id) && (1 ≤ s.description.length) &&
    (1000 ≤ s.duration) && (s.duration ≤ 60000) &&
    sceneMediaValid s.media &&
    s.overlays.all (fun o => ((1 : ℚ)/100 ≤ o.scale) && (o.scale ≤ 2) &&
      ((0 : ℚ) ≤ o.opacity) && (o.opacity ≤ 1))

/-- sum of the scene durations of a list of scenes. -/
def sumDur (scenes : List Scene) : Int :=
  scenes.foldl (fun acc s => acc + s.duration) 0

/-- `SceneGraph._validate_scene_graph` plus the per-scene field constraints:
at least one scene, all scenes valid, unique ids, total duration at most
60 000 ms. -/
def sceneGraphValid (sg : SceneGraph) : Bool :=
  !sg.scenes.isEmpty && sg.scenes.all sceneValid &&
    decide (sg.scenes.map (fun s => s.id)).Nodup &&
    (sumDur sg.scenes ≤ 60000)

/-! ## String utilities (CPython `str` operations, `List Char` model) -/

/-- Python `pat in s` substring test. -/
def strContains : List Char → List Char → Bool
  | pat, [] => pat.isEmpty
  | pat, c :: t => pat.isPrefixOf (c :: t) || strContains pat t

/-- Python `s.lower()` (ASCII model). -/
def lowStr (s : List Char) : List Char := s.map lowChar

/-- Python `" ".join(parts)`. -/
def joinSp : List (List Char) → List Char
  | [] => []
  | [x] => x
  | x :: y :: r => x ++ ' ' :: joinSp (y :: r)

/-- Python `sep.join(parts)` for an arbitrary separator. -/
def joinWith (sep : List Char) : List (List Char) → List Char
  | [] => []
  | [x] => x
  | x :: y :: r => x ++ sep ++ joinWith sep (y :: r)

/-- Python `s.split()` — split on whitespace runs, dropping empty parts.
The accumulator holds the current word reversed. -/
def pyWordsAux : List Char → List Char → List (List Char)
  | acc, [] => if acc.isEmpty then [] else [acc.reverse]
  | acc, c :: t =>
    if pyIsSpace c then
      if acc.isEmpty then pyWordsAux [] t else acc.reverse :: pyWordsAux [] t
    else
      pyWordsAux (c :: acc) t

def pyWords (s : List Char) : List (List Char) := pyWordsAux [] s

/-- sentence terminator for the split pattern `(?<=[.!?])\s+`. -/
def isSentTerm (c : Char) : Bool := c == '.' || c == '!' || c == '?'

/-- scan of `re.split(r"(?<=[.!?])\s+", s)`: a split happens at a whitespace
character preceded by a sentence terminator, and the greedy `\s+` consumes
the whole whitespace run (tracked one character at a time by the `inRun`
flag).  `prevTerm` records whether the previous character is a terminator;
`acc` holds the current part reversed. -/
def splitReAux : Bool → Bool → List Char → List Char → List (List Char)
  | _, _, acc, [] => [acc.reverse]
  | inRun, prevTerm, acc, c :: t =>
    if inRun && pyIsSpace c then
      splitReAux true false acc t
    else if !inRun && prevTerm && pyIsSpace c then
      acc.reverse :: splitReAux true false [] t
    else
      splitReAux false (isSentTerm c) (c :: acc) t

def splitSentRe (s : List Char) : List (List Char) := splitReAux false false [] s

/-- `_split_sentences` of `pytoon/audio_manager/voice_mapper.py`: strip the
text, split on the sentence pattern, strip the parts, drop empty parts (and
return `[]` for empty input). -/
def splitSentences (t : List Char) : List (List Char) :=
  if t.isEmpty then []
  else ((splitSentRe (pyStrip t)).map pyStrip).filter (fun p => !p.isEmpty)

/-- Python `int(q)` on a float value (modelled exactly): truncation toward
zero. -/
def pyInt (q : ℚ) : Int := if 0 ≤ q then ⌊q⌋ else -⌊-q⌋

/-- Python slice `s[:k]`, including negative `k`. -/
def pySliceTo (s : List Char) (k : Int) : List Char :=
  if 0 ≤ k then s.take k.toNat else s.take ((s.length + k).toNat)

/-- Python floor division `a // b` (on ints, `b > 0` in all uses). -/
def pyFloorDiv (a b : Int) : Int := Int.fdiv a b

/-! ## Prompt construction (`pytoon/engine_adapters/prompt_builder.py`,
`build_prompt`).  `_get_max_prompt_length()` reads the absent configuration
file, so it returns the default 500. -/

def defaultMaxPromptLength : Int := 500

/-- one keyword of `_style_to_keywords`: included only when the field is a
present, nonempty string (Python truthiness). -/
def optKw (o : Option (List Char)) (f : List Char → List Char) : Option (List Char) :=
  match o with
  | some v => if v.isEmpty then none else some (f v)
  | none => none

/-- `_style_to_keywords`. -/
def styleToKeywords (st : SceneStyle) : List Char :=
  joinWith ", ".toList
    ([optKw st.mood (fun m => m ++ " mood".toList),
      optKw st.cameraMotion (fun cm => "camera: ".toList ++ cm),
      optKw st.lighting (fun l => l ++ " lighting".toList)].filterMap id)

/-- resolution of `engine_max_length or _get_max_prompt_length()`:
`None` and `0` are falsy, any other int is used as given. -/
def resolveMaxLen (eml : Option Int) : Int :=
  match eml with
  | none => defaultMaxPromptLength
  | some n => if n == 0 then defaultMaxPromptLength else n

/-- `build_prompt`: compose parts, sanitize when brand-safe, truncate to the
engine's maximum prompt length, strip. -/
def buildPrompt (sc : Scene) (brandSafe : Bool)
    (presetKeywords : Option (List (List Char))) (engineMaxLength : Option Int) :
    List Char :=
  let part1 : List (List Char) :=
    match sc.media.prompt with
    | some mp => if mp.isEmpty then (if sc.description.isEmpty then [] else [sc.description])
                 else [mp]
    | none => if sc.description.isEmpty then [] else [sc.description]
  let styleParts := styleToKeywords sc.style
  let part2 : List (List Char) := if styleParts.isEmpty then [] else [styleParts]
  let part3 : List (List Char) :=
    match presetKeywords with
    | some kws => if kws.isEmpty then [] else [joinWith ", ".toList kws]
    | none => []
  let part4 : List (List Char) :=
    if brandSafe then ["professional, brand-safe, clean aesthetic".toList] else []
  let raw0 := joinWith ". ".toList (part1 ++ part2 ++ part3 ++ part4)
  let raw1 := if brandSafe then sanitizePrompt raw0 else raw0
  let maxLen := resolveMaxLen engineMaxLength
  let raw2 := if (raw1.length : Int) > maxLen then
      pySliceTo raw1 (maxLen - 3) ++ "...".toList
    else raw1
  pyStrip raw2

theorem stripEndLenLe (s : List Char) : (stripEnd s).length ≤ s.length := by
  obtain ⟨n, hn⟩ := stripEnd_eq_take s
  rw [hn]
  simp [List.length_take]

theorem pyStripLenLe (s : List Char) : (pyStrip s).length ≤ s.length :=
  le_trans (dropWhileLenLe pyIsSpace (stripEnd s)) (stripEndLenLe s)

/-- C8 (amended): for every scene and configuration whose resolved maximum
prompt length `L` is at least 3, the string returned by `build_prompt` has
length at most `L`. -/
theorem buildPrompt_length_le (sc : Scene) (brandSafe : Bool)
    (presetKeywords : Option (List (List Char))) (engineMaxLength : Option Int)
    (hL : 3 ≤ resolveMaxLen engineMaxLength) :
    ((buildPrompt sc brandSafe presetKeywords engineMaxLength).length : Int) ≤
      resolveMaxLen engineMaxLength := by
  unfold buildPrompt
  set maxLen := resolveMaxLen engineMaxLength with hm
  simp only
  set raw1 := (if brandSafe then
      sanitizePrompt (joinWith ". ".toList _) else joinWith ". ".toList _) with hraw1
  by_cases hgt : ((raw1.length : Int) > maxLen)
  · rw [if_pos hgt]
    have h1 : (pyStrip (pySliceTo raw1 (maxLen - 3) ++ "...".toList)).length ≤
        (pySliceTo raw1 (maxLen - 3)).length + 3 := by
      have := pyStripLenLe (pySliceTo raw1 (maxLen - 3) ++ "...".toList)
      simpa using this
    have h2 : (pySliceTo raw1 (maxLen - 3)).length ≤ (maxLen - 3).toNat := by
      unfold pySliceTo
      rw [if_pos (by omega)]
      simp [List.length_take]
    have h3 : ((maxLen - 3).toNat : Int) = maxLen - 3 := by omega
    omega
  · rw [if_neg hgt]
    have h1 := pyStripLenLe raw1
    omega

/-- C8 witness: the amended bound holds at the default configuration. -/
theorem buildPrompt_length_le_witness :
    3 ≤ resolveMaxLen none ∧
      ((buildPrompt
          { id := 1, description := "A product".toList, duration := 5000,
            media := { type := MediaType.video, asset := none, engine := none,
                       prompt := none, effect := none },
            caption := [], audio := none,
            style := { mood := none, cameraMotion := none, lighting := none },
            overlays := [], transition := TransitionType.fade }
          true none none).length : Int) ≤ resolveMaxLen none :=
  ⟨by decide,
   buildPrompt_length_le
     { id := 1, description := "A product".toList, duration := 5000,
       media := { type := MediaType.video, asset := none, engine := none,
                  prompt := none, effect := none },
       caption := [], audio := none,
       style := { mood := none, cameraMotion := none, lighting := none },
       overlays := [], transition := TransitionType.fade }
     true none none (by decide)⟩

/-- C8 counterexample: with maximum prompt length 2, Python's negative slice
`raw[:max_len - 3]` removes a single character from the end and the appended
ellipsis makes the result 10 characters long — longer than the configured
maximum.  This refutes the claim for configurations with `L < 3`. -/
theorem buildPrompt_exceeds_max :
    ¬ (((buildPrompt
        { id := 1, description := "abcdefgh".toList, duration := 5000,
          media := { type := MediaType.video, asset := none, engine := none,
                     prompt := none, effect := none },
          caption := [], audio := none,
          style := { mood := none, cameraMotion := none, lighting := none },
          overlays := [], transition := TransitionType.fade }
        false none (some 2)).length : Int) ≤ 2) := by
  decide

/-! ## Engine selection (`pytoon/engine_adapters/engine_manager.py`,
`select_engine_for_scene` and `_select_by_style`).  With no
`config/engine.yaml` present, `get_engine_config()` is `{}`, so the config
default engine is `"runway"` and the fallback chain is the built-in
`_FALLBACK_ORDER`. -/

def runwayKws : List (List Char) :=
  ["realistic".toList, "cinematic".toList, "photorealis".toList]

def pikaKws : List (List Char) :=
  ["stylized".toList, "creative".toList, "artistic".toList, "anime".toList,
   "abstract".toList]

def lumaKws : List (List Char) :=
  ["physics".toList, "3d".toList, "product".toList, "showcase".toList,
   "rotation".toList]

/-- `" ".join(filter(None, [mood, camera_motion, lighting, description]))`
of `_select_by_style` (`filter(None, …)` drops `None` and empty strings). -/
def styleFields (sc : Scene) : List (List Char) :=
  ([sc.style.mood, sc.style.cameraMotion, sc.style.lighting,
    some sc.description].filterMap id).filter (fun f => !f.isEmpty)

/-- the joined, lower-cased style string scanned for keywords. -/
def styleStr (sc : Scene) : List Char := lowStr (joinSp (styleFields sc))

/-- `_select_by_style`: rules 3-6. -/
def selectByStyle (sc : Scene) (dflt : List Char) : List Char :=
  if runwayKws.any (fun kw => strContains kw (styleStr sc)) then "runway".toList
  else if pikaKws.any (fun kw => strContains kw (styleStr sc)) then "pika".toList
  else if lumaKws.any (fun kw => strContains kw (styleStr sc)) then "luma".toList
  else dflt

/-- `cfg.get("default_engine", "runway")` with `cfg = {}`. -/
def configDefaultEngine : List Char := "runway".toList

/-- `default_engine or config_default` (Python `or`: `None` and `""` fall
through to the config default). -/
def effectiveDefault (d : Option (List Char)) : List Char :=
  match d with
  | some s => if s.isEmpty then configDefaultEngine else s
  | none => configDefaultEngine

/-- the engine-name computation of `select_engine_for_scene` (rules 1-6). -/
def selectEngineName (sc : Scene) (defaultEngine : Option (List Char)) : List Char :=
  match sc.media.engine with
  | some e => e.value
  | none =>
    if sc.media.type == MediaType.image then "local".toList
    else selectByStyle sc (effectiveDefault defaultEngine)

structure EngineAssignment where
  sceneId : Int
  engineName : List Char
  prompt : List Char
  imagePath : Option (List Char)
  durationSeconds : ℚ
  styleHints : SceneStyle
  deriving DecidableEq, Repr

/-- `select_engine_for_scene` (the scene's clip duration in seconds is
`scene.duration / 1000.0`). -/
def selectEngineForScene (sc : Scene) (defaultEngine : Option (List Char))
    (brandSafe : Bool) (presetKeywords : Option (List (List Char))) : EngineAssignment :=
  { sceneId := sc.id,
    engineName := selectEngineName sc defaultEngine,
    prompt := buildPrompt sc brandSafe presetKeywords none,
    imagePath := sc.media.asset,
    durationSeconds := (sc.duration : ℚ) / 1000,
    styleHints := sc.style }

/-- the specification's reading of rules 3-6: the style fields or the
description, each taken individually, contain one of the keywords
(case-insensitively). -/
def specContainsAny (kws : List (List Char)) (sc : Scene) : Bool :=
  [sc.style.mood.getD [], sc.style.cameraMotion.getD [],
   sc.style.lighting.getD [], sc.description].any
    (fun f => kws.any (fun kw => strContains kw (lowStr f)))

/-- engine selection as the specification states it (`spec.md` §4.G.1,
first match wins). -/
def specSelectEngine (sc : Scene) (defaultEngine : Option (List Char)) : List Char :=
  match sc.media.engine with
  | some e => e.value
  | none =>
    if sc.media.type == MediaType.image then "local".toList
    else if specContainsAny runwayKws sc then "runway".toList
    else if specContainsAny pikaKws sc then "pika".toList
    else if specContainsAny lumaKws sc then "luma".toList
    else effectiveDefault defaultEngine

theorem isPrefixOf_append_sep {p : List Char} (hsp : (' ' : Char) ∉ p) :
    ∀ (a b : List Char), p.isPrefixOf (a ++ ' ' :: b) = p.isPrefixOf a := by
  induction p with
  | nil => intro a b; simp [List.isPrefixOf]
  | cons p0 p2 ih =>
    intro a b
    cases a with
    | nil =>
      simp only [List.nil_append, List.isPrefixOf]
      have hne : (p0 == ' ') = false := by
        cases hq : p0 == ' ' with
        | false => rfl
        | true =>
          have : p0 = ' ' := by simpa using hq
          subst this
          exact absurd (by simp) hsp
      rw [hne]
      simp
    | cons x a2 =>
      simp only [List.cons_append, List.isPrefixOf, List.append_eq]
      rw [ih (fun hm => hsp (by simp [hm])) a2 b]

theorem strContains_append_sep {p : List Char} (hp : p ≠ []) (hsp : (' ' : Char) ∉ p) :
    ∀ (a b : List Char), strContains p (a ++ ' ' :: b) =
      (strContains p a || strContains p b) := by
  intro a
  induction a with
  | nil =>
    intro b
    simp only [List.nil_append, strContains]
    have h1 : p.isPrefixOf (' ' :: b) = false := by
      have := isPrefixOf_append_sep hsp [] b
      simpa [List.isPrefixOf] using this
    have h2 : p.isEmpty = false := kNotEmpty hp
    rw [h1, h2]
  | cons x a2 ih =>
    intro b
    simp only [List.cons_append, strContains, List.append_eq]
    rw [show (x :: (a2 ++ ' ' :: b)) = ((x :: a2) ++ ' ' :: b) by simp]
    rw [isPrefixOf_append_sep hsp (x :: a2) b]
    rw [ih b]
    simp only [strContains, Bool.or_assoc]

theorem strContains_joinSp {p : List Char} (hp : p ≠ []) (hsp : (' ' : Char) ∉ p) :
    ∀ (L : List (List Char)), strContains p (joinSp L) =
      L.any (fun f => strContains p f) := by
  intro L
  induction L with
  | nil =>
    simp only [joinSp, strContains, List.any_nil]
    exact kNotEmpty hp
  | cons x L2 ih =>
    cases L2 with
    | nil => simp [joinSp, strContains]
    | cons y r =>
      show strContains p (x ++ ' ' :: joinSp (y :: r)) = _
      rw [strContains_append_sep hp hsp x (joinSp (y :: r))]
      rw [ih]
      simp [List.any_cons]

theorem lowStr_joinSp : ∀ (L : List (List Char)),
    lowStr (joinSp L) = joinSp (L.map lowStr) := by
  intro L
  induction L with
  | nil => rfl
  | cons x L2 ih =>
    cases L2 with
    | nil => simp [joinSp, List.map]
    | cons y r =>
      show lowStr (x ++ ' ' :: joinSp (y :: r)) = _
      unfold lowStr
      rw [List.map_append, List.map_cons]
      have hsp : lowChar ' ' = ' ' := by decide
      rw [hsp]
      have := ih
      unfold lowStr at this
      rw [this]
      rfl

theorem any_fields (g : List Char → Bool) (hg : g [] = false) :
    ∀ (L : List (Option (List Char))),
      ((L.filterMap id).filter (fun f => !f.isEmpty)).any g =
        L.any (fun o => g (o.getD [])) := by
  intro L
  induction L with
  | nil => simp
  | cons o L2 ih =>
    cases o with
    | none =>
      simp only [List.filterMap_cons, id_eq, List.any_cons, Option.getD_none, hg]
      rw [ih]
      simp
    | some f =>
      simp only [List.filterMap_cons, id_eq, List.any_cons, Option.getD_some]
      by_cases hf : f.isEmpty = true
      · have hfe : f = [] := by
          cases f with
          | nil => rfl
          | cons a b => simp [List.isEmpty] at hf
        rw [List.filter_cons_of_neg (by simp [hf])]
        rw [ih, hfe, hg]
        simp
      · rw [List.filter_cons_of_pos (by simp at hf; simp [hf])]
        rw [List.any_cons, ih]

theorem any_swap {α β : Type} (l1 : List α) (l2 : List β) (f : α → β → Bool) :
    l1.any (fun a => l2.any (fun b => f a b)) = l2.any (fun b => l1.any (fun a => f a b)) := by
  rw [Bool.eq_iff_iff]
  simp only [List.any_eq_true]
  constructor
  · rintro ⟨a, ha, b, hb, hf⟩
    exact ⟨b, hb, a, ha, hf⟩
  · rintro ⟨b, hb, a, ha, hf⟩
    exact ⟨a, ha, b, hb, hf⟩

theorem any_map_fn {α β : Type} (L : List α) (g : α → β) (p : β → Bool) :
    (L.map g).any p = L.any (fun x => p (g x)) := by
  induction L with
  | nil => rfl
  | cons x t ih => simp only [List.map_cons, List.any_cons, ih]

theorem kwAny_eq (kws : List (List Char))
    (h : ∀ kw ∈ kws, kw ≠ [] ∧ (' ' : Char) ∉ kw) (sc : Scene) :
    kws.any (fun kw => strContains kw (styleStr sc)) = specContainsAny kws sc := by
  have hstep : ∀ kw ∈ kws, strContains kw (styleStr sc) =
      [sc.style.mood.getD [], sc.style.cameraMotion.getD [],
        sc.style.lighting.getD [], sc.description].any
        (fun f => strContains kw (lowStr f)) := by
    intro kw hkw
    obtain ⟨h1, h2⟩ := h kw hkw
    unfold styleStr
    rw [lowStr_joinSp]
    rw [strContains_joinSp h1 h2]
    rw [any_map_fn]
    unfold styleFields
    have hg : strContains kw (lowStr []) = false := by
      simp only [lowStr, List.map_nil, strContains]
      exact kNotEmpty h1
    rw [any_fields (fun f => strContains kw (lowStr f)) hg]
    simp only [List.any_cons, List.any_nil, Option.getD_some]
  have hrw : kws.any (fun kw => strContains kw (styleStr sc)) =
      kws.any (fun kw => [sc.style.mood.getD [], sc.style.cameraMotion.getD [],
        sc.style.lighting.getD [], sc.description].any
        (fun f => strContains kw (lowStr f))) := by
    rw [Bool.eq_iff_iff]
    simp only [List.any_eq_true]
    constructor
    · rintro ⟨kw, hkw, hc⟩
      refine ⟨kw, hkw, ?_⟩
      rw [← List.any_eq_true, ← hstep kw hkw]
      exact hc
    · rintro ⟨kw, hkw, hc⟩
      refine ⟨kw, hkw, ?_⟩
      rw [hstep kw hkw, List.any_eq_true]
      exact hc
  rw [hrw, any_swap]
  rfl

/-- C6: `select_engine_for_scene` assigns the engine by the specification's
priority rules with first match winning: an explicit `media.engine` wins;
otherwise IMAGE media selects `"local"`; otherwise the style fields and the
description are scanned for the runway, pika and luma keyword sets in this
order; otherwise the configured default engine is used. -/
theorem c6_select_engine_matches_spec (sc : Scene) (d : Option (List Char)) :
    selectEngineName sc d = specSelectEngine sc d := by
  unfold selectEngineName specSelectEngine
  cases sc.media.engine with
  | some e => rfl
  | none =>
    by_cases ht : (sc.media.type == MediaType.image) = true
    · rw [if_pos ht, if_pos ht]
    · rw [if_neg ht, if_neg ht]
      unfold selectByStyle
      rw [kwAny_eq runwayKws (by decide) sc]
      rw [kwAny_eq pikaKws (by decide) sc]
      rw [kwAny_eq lumaKws (by decide) sc]

/-! ## Fallback chain with no provider API keys
(`pytoon/engine_adapters/engine_manager.py`, `_render_with_fallback`,
`_get_fallback_chain`, `render_all_scenes`).  When `RUNWAY_API_KEY`,
`PIKA_API_KEY` and `LUMA_API_KEY` are all unset, `_is_engine_available` is
false for every engine, so the Level-1 guard `engine and
_is_engine_available(primary)` fails and `_get_fallback_chain` returns
`["local"]`, whose loop body breaks immediately; control reaches Level 3,
the deterministic local renderer.  The embedding below is
`_render_with_fallback` specialized to that environment; the I/O-dependent
fields (`clip_path`, `elapsed_ms`) are not modelled. -/

structure SceneRenderResult where
  sceneId : Int
  success : Bool
  engineUsed : List Char
  fallbackUsed : Bool
  fallbackChain : Option (List (List Char))
  error : Option (List Char)
  deriving DecidableEq, Repr

def fallbackOrder : List (List Char) :=
  ["runway".toList, "pika".toList, "luma".toList]

/-- `_get_fallback_chain` with every external engine unavailable: the
alternates list is empty and `"local"` is appended. -/
def getFallbackChainNoKeys (primary : List Char) : List (List Char) :=
  (fallbackOrder.filter (fun e => !(e == primary) && false)) ++ ["local".toList]

/-- `_render_with_fallback` with no API keys configured. -/
def renderWithFallbackNoKeys (a : EngineAssignment) : SceneRenderResult :=
  if a.engineName == "local".toList then
    { sceneId := a.sceneId, success := true, engineUsed := "local".toList,
      fallbackUsed := false, fallbackChain := none, error := none }
  else
    { sceneId := a.sceneId, success := true, engineUsed := "local".toList,
      fallbackUsed := true, fallbackChain := some ["local".toList], error := none }

/-- `render_all_scenes` with no API keys: engine assignment per scene, then
the fallback chain per scene; the gathered results keep scene order and no
exception path is taken (the Level-3 renderer is deterministic). -/
def renderAllScenesNoKeys (sg : SceneGraph) (brandSafe : Bool)
    (defaultEngine : Option (List Char)) (presetKeywords : Option (List (List Char))) :
    List SceneRenderResult :=
  (sg.scenes.map (fun sc => selectEngineForScene sc defaultEngine brandSafe presetKeywords)).map
    renderWithFallbackNoKeys

/-- C1 (amended): with no provider API key configured, every scene of every
scene graph renders with `success = true` and `engine_used = "local"`, and
`fallback_used` is `true` exactly for the scenes whose selected engine was
external; scenes assigned `"local"` directly (image scenes, or an explicit
`media.engine = "local"`) report `fallback_used = false`. -/
theorem c1_no_keys_local_render (sg : SceneGraph) (brandSafe : Bool)
    (defaultEngine : Option (List Char)) (presetKeywords : Option (List (List Char)))
    (r : SceneRenderResult)
    (hr : r ∈ renderAllScenesNoKeys sg brandSafe defaultEngine presetKeywords) :
    r.success = true ∧ r.engineUsed = "local".toList ∧
      ∃ sc ∈ sg.scenes, r.sceneId = sc.id ∧
        r.fallbackUsed = !(selectEngineName sc defaultEngine == "local".toList) := by
  unfold renderAllScenesNoKeys at hr
  rw [List.map_map, List.mem_map] at hr
  obtain ⟨sc, hsc, hEq⟩ := hr
  subst hEq
  unfold Function.comp renderWithFallbackNoKeys
  by_cases hl : ((selectEngineForScene sc defaultEngine brandSafe presetKeywords).engineName
      == "local".toList) = true
  · rw [if_pos hl]
    refine ⟨rfl, rfl, sc, hsc, rfl, ?_⟩
    have hn : (selectEngineForScene sc defaultEngine brandSafe presetKeywords).engineName
        = selectEngineName sc defaultEngine := rfl
    rw [hn] at hl
    rw [hl]
    rfl
  · rw [if_neg hl]
    refine ⟨rfl, rfl, sc, hsc, rfl, ?_⟩
    have hn : (selectEngineForScene sc defaultEngine brandSafe presetKeywords).engineName
        = selectEngineName sc defaultEngine := rfl
    rw [hn] at hl
    rw [Bool.not_eq_true] at hl
    rw [hl]
    rfl

/-- a prompt-driven video scene (used in witness inputs). -/
def videoScene1 : Scene :=
  { id := 1
    description := "A product shot".toList
    duration := 5000
    media := { type := MediaType.video
               asset := none
               engine := none
               prompt := some "A product shot".toList
               effect := none }
    caption := "A product shot".toList
    audio := none
    style := { mood := none, cameraMotion := none, lighting := none }
    overlays := []
    transition := TransitionType.fade }

/-- an image-backed scene (used in counterexample inputs). -/
def imageScene1 : Scene :=
  { id := 1
    description := "Product image".toList
    duration := 5000
    media := { type := MediaType.image
               asset := some "p.png".toList
               engine := none
               prompt := none
               effect := some VisualEffect.kenBurnsZoom }
    caption := []
    audio := none
    style := { mood := none, cameraMotion := none, lighting := none }
    overlays := []
    transition := TransitionType.fade }

def emptyAudio : GlobalAudio :=
  { voiceScript := none, voiceFile := none, backgroundMusic := none }

/-- a one-scene, prompt-driven video scene graph. -/
def videoGraph1 : SceneGraph :=
  { version := "2.0".toList, scenes := [videoScene1], globalAudio := emptyAudio }

/-- a one-scene, image-backed scene graph. -/
def imageGraph1 : SceneGraph :=
  { version := "2.0".toList, scenes := [imageScene1], globalAudio := emptyAudio }

/-- C1 witness: the amended statement applied to a concrete one-scene video
graph: the result succeeds with the local engine. -/
theorem c1_no_keys_local_render_witness :
    ∃ r ∈ renderAllScenesNoKeys videoGraph1 true none none,
      r.success = true ∧ r.engineUsed = "local".toList := by
  have hmem : renderWithFallbackNoKeys (selectEngineForScene videoScene1 none true none) ∈
      renderAllScenesNoKeys videoGraph1 true none none := by
    unfold renderAllScenesNoKeys
    rw [List.map_map]
    exact List.mem_map.mpr ⟨videoScene1, List.mem_singleton.mpr rfl, rfl⟩
  obtain ⟨h1, h2, _⟩ := c1_no_keys_local_render videoGraph1 true none none _ hmem
  exact ⟨_, hmem, h1, h2⟩

/-- C1 counterexample: a non-empty scene graph consisting of one image scene
is rendered with `fallback_used = false`, refuting the claim that every
scene's result reports `fallback_used = true`. -/
theorem c1_image_scene_no_fallback_flag :
    (renderAllScenesNoKeys imageGraph1 true none none).map (fun r => r.fallbackUsed)
      = [false] := by
  show List.map _ (List.map renderWithFallbackNoKeys
    (List.map (fun sc => selectEngineForScene sc none true none) imageGraph1.scenes)) = [false]
  rw [show imageGraph1.scenes = [imageScene1] from rfl]
  rw [List.map_singleton, List.map_singleton, List.map_singleton]
  rw [show renderWithFallbackNoKeys (selectEngineForScene imageScene1 none true none)
      = { sceneId := (selectEngineForScene imageScene1 none true none).sceneId,
          success := true, engineUsed := "local".toList, fallbackUsed := false,
          fallbackChain := none, error := none } from ?_]
  unfold renderWithFallbackNoKeys
  rw [if_pos]
  rw [show (selectEngineForScene imageScene1 none true none).engineName
      = selectEngineName imageScene1 none from rfl]
  rw [show selectEngineName imageScene1 none = "local".toList from rfl]
  exact (by decide : (("local".toList == "local".toList) = true))

/-! ## Timeline model and orchestrator
(`pytoon/timeline/models.py`, `pytoon/timeline/orchestrator.py`).
`end` is a Lean keyword, so the models' `end` field is named `endMs`. -/

structure TransitionSpec where
  type : TransitionType
  duration : Int
  deriving DecidableEq, Repr

structure TimelineEntry where
  sceneId : Int
  start : Int
  endMs : Int
  transition : Option TransitionSpec
  deriving DecidableEq, Repr

structure VideoTrack where
  sceneId : Int
  asset : Option (List Char)
  effect : Option (List Char)
  layer : Int
  deriving DecidableEq, Repr

inductive AudioTrackType
  | voiceover
  | music
  | sfx
  deriving DecidableEq, Repr

structure AudioTrack where
  type : AudioTrackType
  file : Option (List Char)
  start : Int
  endMs : Option Int
  volume : ℚ
  deriving DecidableEq, Repr

structure CaptionTrack where
  text : List Char
  start : Int
  endMs : Int
  sceneId : Option Int
  deriving DecidableEq, Repr

structure Tracks where
  video : List VideoTrack
  audio : List AudioTrack
  captions : List CaptionTrack
  deriving DecidableEq, Repr

structure Timeline where
  version : List Char
  totalDuration : Int
  timeline : List TimelineEntry
  tracks : Tracks
  deriving DecidableEq, Repr

/-- transition duration toward the next scene:
`default_transition_ms if t_type != CUT else 0`. -/
def transDur (dt : Int) (s : Scene) : Int :=
  if s.transition == TransitionType.cut then 0 else dt

/-- steps 1-2 of `build_timeline`: sequential layout with transition
overlap; the last scene carries no transition. -/
def layoutScenes (dt : Int) : Int → List Scene → List TimelineEntry
  | cursor, [] => []
  | cursor, [s] =>
    [{ sceneId := s.id, start := cursor, endMs := cursor + s.duration,
       transition := none }]
  | cursor, s :: s2 :: rest =>
    { sceneId := s.id, start := cursor, endMs := cursor + s.duration,
      transition := some { type := s.transition, duration := transDur dt s } } ::
      layoutScenes dt (cursor + s.duration - transDur dt s) (s2 :: rest)

/-- `entries[-1].end if entries else 0`. -/
def lastEnd (entries : List TimelineEntry) : Int :=
  (entries.getLast?.map (fun e => e.endMs)).getD 0

/-- rebuild loop of `_proportional_reduce`: durations scaled by
`ratio = 60000 / original_total` with the 1000 ms floor, overlap clamped to
half the reduced duration. -/
def reduceGo (dt : Int) (ratio : ℚ) : Int → List Scene → List TimelineEntry
  | cursor, [] => []
  | cursor, [s] =>
    [{ sceneId := s.id, start := cursor,
       endMs := cursor + max 1000 (pyInt ((s.duration : ℚ) * ratio)),
       transition := none }]
  | cursor, s :: s2 :: rest =>
    let newDuration := max 1000 (pyInt ((s.duration : ℚ) * ratio))
    let tDur := min (transDur dt s) (Int.fdiv newDuration 2)
    { sceneId := s.id, start := cursor, endMs := cursor + newDuration,
      transition := some { type := s.transition, duration := tDur } } ::
      reduceGo dt ratio (cursor + newDuration - tDur) (s2 :: rest)

/-- `_proportional_reduce`. -/
def proportionalReduce (dt : Int) (entries : List TimelineEntry) (scenes : List Scene) :
    List TimelineEntry × Int :=
  let originalTotal := lastEnd entries
  let ratio : ℚ := 60000 / (originalTotal : ℚ)
  let newEntries := reduceGo dt ratio 0 scenes
  (newEntries, lastEnd newEntries)

/-- Python truthiness of an optional string. -/
def optTruthy (o : Option (List Char)) : Bool :=
  match o with
  | some s => !s.isEmpty
  | none => false

/-- lookup in the dict `{e.sceneId: e for e in entries}` (later entries
overwrite earlier ones, hence the reverse search). -/
def entryFind (entries : List TimelineEntry) (sid : Int) : Option TimelineEntry :=
  entries.reverse.find? (fun e => e.sceneId == sid)

/-- step 4 of `build_timeline` for a single scene: a caption track on
`[start+200, end-200]`, clamped to the full entry window when the span would
invert.  A missing entry raises `KeyError` in the source; it cannot occur
(every scene id has an entry) and is modelled as producing no track. -/
def mkCaption (entries : List TimelineEntry) (s : Scene) : Option CaptionTrack :=
  if s.caption.isEmpty then none
  else
    match entryFind entries s.id with
    | some te =>
      if te.endMs - 200 ≤ te.start + 200 then
        some { text := s.caption, start := te.start, endMs := te.endMs,
               sceneId := some s.id }
      else
        some { text := s.caption, start := te.start + 200, endMs := te.endMs - 200,
               sceneId := some s.id }
    | none => none

/-- step 3 of `build_timeline`: scene media on layer 0, overlays on layer 1. -/
def videoTracksOf (scenes : List Scene) : List VideoTrack :=
  scenes.foldr (fun s acc =>
    ({ sceneId := s.id, asset := s.media.asset,
       effect := s.media.effect.map VisualEffect.value, layer := 0 } : VideoTrack) ::
      (s.overlays.map (fun o =>
        ({ sceneId := s.id, asset := some o.asset, effect := none,
           layer := 1 } : VideoTrack))) ++ acc) []

/-- step 5 of `build_timeline`. -/
def audioTracksOf (ga : GlobalAudio) (totalDuration : Int) : List AudioTrack :=
  (if optTruthy ga.voiceScript || optTruthy ga.voiceFile then
    [{ type := AudioTrackType.voiceover, file := ga.voiceFile, start := 0,
       endMs := some totalDuration, volume := 1 }]
   else []) ++
  (if optTruthy ga.backgroundMusic then
    [{ type := AudioTrackType.music, file := ga.backgroundMusic, start := 0,
       endMs := some totalDuration, volume := 1/2 }]
   else [])

/-- steps 1-2 and 6 of `build_timeline`: the laid-out entries and the total,
after the 60-second enforcement. -/
def timelinePair (sg : SceneGraph) (dt : Int) : List TimelineEntry × Int :=
  let entries0 := layoutScenes dt 0 sg.scenes
  let total0 := lastEnd entries0
  if total0 > 60000 then proportionalReduce dt entries0 sg.scenes
  else (entries0, total0)

/-- `build_timeline`. -/
def buildTimeline (sg : SceneGraph) (dt : Int) : Timeline :=
  { version := "2.0".toList,
    totalDuration := (timelinePair sg dt).2,
    timeline := (timelinePair sg dt).1,
    tracks := { video := videoTracksOf sg.scenes,
                audio := audioTracksOf sg.globalAudio (timelinePair sg dt).2,
                captions := sg.scenes.filterMap (mkCaption (timelinePair sg dt).1) } }

theorem timelinePair_no_reduce (sg : SceneGraph) (dt : Int)
    (hc : ¬ (lastEnd (layoutScenes dt 0 sg.scenes) > 60000)) :
    timelinePair sg dt = (layoutScenes dt 0 sg.scenes, lastEnd (layoutScenes dt 0 sg.scenes)) := by
  unfold timelinePair
  exact if_neg hc

theorem sumDur_foldl (l : List Scene) : ∀ init : Int,
    l.foldl (fun a s => a + s.duration) init = init + sumDur l := by
  induction l with
  | nil => intro init; simp [sumDur]
  | cons s rest ih =>
    intro init
    unfold sumDur
    rw [List.foldl_cons, List.foldl_cons, ih, ih (0 + s.duration)]
    ring

theorem sumDur_cons (s : Scene) (rest : List Scene) :
    sumDur (s :: rest) = s.duration + sumDur rest := by
  calc sumDur (s :: rest)
      = rest.foldl (fun a x => a + x.duration) (0 + s.duration) := rfl
    _ = (0 + s.duration) + sumDur rest := sumDur_foldl rest (0 + s.duration)
    _ = s.duration + sumDur rest := by ring

/-- total transition overlap of the layout (one per non-last scene). -/
def sumTrans (dt : Int) : List Scene → Int
  | [] => 0
  | [_] => 0
  | s :: s2 :: rest => transDur dt s + sumTrans dt (s2 :: rest)

theorem sumTrans_cons_cons (dt : Int) (s s2 : Scene) (rest : List Scene) :
    sumTrans dt (s :: s2 :: rest) = transDur dt s + sumTrans dt (s2 :: rest) := rfl

theorem ne_nil_of_isEmpty_false {α : Type} {l : List α} (h : l.isEmpty = false) : l ≠ [] := by
  cases l with
  | nil => simp [List.isEmpty] at h
  | cons x t => simp

theorem transDur_nonneg {dt : Int} (hdt : 0 ≤ dt) (s : Scene) : 0 ≤ transDur dt s := by
  unfold transDur
  split
  · omega
  · exact hdt

theorem transDur_le {dt : Int} (hdt : 0 ≤ dt) (s : Scene) : transDur dt s ≤ dt := by
  unfold transDur
  split
  · exact hdt
  · omega

theorem sumTrans_nonneg {dt : Int} (hdt : 0 ≤ dt) : ∀ l : List Scene, 0 ≤ sumTrans dt l := by
  intro l
  induction l with
  | nil => simp [sumTrans]
  | cons s rest ih =>
    cases rest with
    | nil => simp [sumTrans]
    | cons s2 r2 =>
      unfold sumTrans
      have h1 := transDur_nonneg hdt s
      omega

theorem sumTrans_le {dt : Int} (hdt : 0 ≤ dt) :
    ∀ l : List Scene, l ≠ [] → sumTrans dt l ≤ ((l.length : Int) - 1) * dt := by
  intro l
  induction l with
  | nil => intro h; exact absurd rfl h
  | cons s rest ih =>
    intro _
    cases rest with
    | nil => simp [sumTrans]
    | cons s2 r2 =>
      rw [sumTrans_cons_cons]
      have h1 := transDur_le hdt s
      have h2 := ih (by simp)
      simp only [List.length_cons] at h2 ⊢
      push_cast at h2 ⊢
      have h3 : ((r2.length : Int) + 1 - 1) * dt = (r2.length : Int) * dt := by ring
      have h4 : ((r2.length : Int) + 1 + 1 - 1) * dt = (r2.length : Int) * dt + dt := by ring
      rw [h3] at h2
      rw [h4]
      linarith

theorem lastEnd_cons_cons (e : TimelineEntry) (e2 : TimelineEntry) (l : List TimelineEntry) :
    lastEnd (e :: e2 :: l) = lastEnd (e2 :: l) := by
  unfold lastEnd
  rw [List.getLast?_cons_cons]

theorem layout_lastEnd (dt : Int) : ∀ (scenes : List Scene) (cursor : Int), scenes ≠ [] →
    lastEnd (layoutScenes dt cursor scenes) = cursor + sumDur scenes - sumTrans dt scenes := by
  intro scenes
  induction scenes with
  | nil => intro cursor h; exact absurd rfl h
  | cons s rest ih =>
    intro cursor _
    cases rest with
    | nil =>
      unfold layoutScenes lastEnd sumTrans
      rw [sumDur_cons]
      simp [sumDur]
    | cons s2 r2 =>
      show lastEnd (_ :: layoutScenes dt (cursor + s.duration - transDur dt s) (s2 :: r2)) = _
      have hne : layoutScenes dt (cursor + s.duration - transDur dt s) (s2 :: r2) ≠ [] := by
        cases r2 with
        | nil => simp [layoutScenes]
        | cons s3 r3 => simp [layoutScenes]
      rcases hl : layoutScenes dt (cursor + s.duration - transDur dt s) (s2 :: r2) with _ | ⟨e2, l2⟩
      · exact absurd hl hne
      · rw [lastEnd_cons_cons]
        rw [← hl]
        rw [ih (cursor + s.duration - transDur dt s) (by simp)]
        rw [sumDur_cons s (s2 :: r2), sumTrans_cons_cons]
        ring

theorem sceneGraphValid_elim {sg : SceneGraph} (h : sceneGraphValid sg = true) :
    sg.scenes ≠ [] ∧ (∀ s ∈ sg.scenes, sceneValid s = true) ∧
      (sg.scenes.map (fun s => s.id)).Nodup ∧ sumDur sg.scenes ≤ 60000 := by
  unfold sceneGraphValid at h
  simp only [Bool.and_eq_true, Bool.not_eq_true',
    List.all_eq_true, decide_eq_true_eq] at h
  obtain ⟨⟨⟨h1, h2⟩, h3⟩, h4⟩ := h
  exact ⟨ne_nil_of_isEmpty_false h1, h2, h3, by simpa using h4⟩

theorem sceneValid_duration {s : Scene} (h : sceneValid s = true) :
    1000 ≤ s.duration ∧ s.duration ≤ 60000 := by
  unfold sceneValid at h
  simp only [Bool.and_eq_true, decide_eq_true_eq] at h
  obtain ⟨⟨⟨⟨⟨_, _⟩, h3⟩, h4⟩, _⟩, _⟩ := h
  exact ⟨h3, h4⟩

/-- C3: for every valid scene graph, the timeline built with the default
500 ms transition keeps `totalDuration ≤ 60000` and the difference between
the summed scene durations and the total is at most `(N - 1) * 500` (it
equals the summed transition overlaps). -/
theorem c3_timeline_duration_cap (sg : SceneGraph) (h : sceneGraphValid sg = true) :
    (buildTimeline sg 500).totalDuration ≤ 60000 ∧
      |sumDur sg.scenes - (buildTimeline sg 500).totalDuration| ≤
        ((sg.scenes.length : Int) - 1) * 500 := by
  obtain ⟨hne, hall, hnd, hsum⟩ := sceneGraphValid_elim h
  have hT0 := layout_lastEnd 500 sg.scenes 0 hne
  have hTnn := sumTrans_nonneg (by norm_num : (0 : Int) ≤ 500) sg.scenes
  have hTle := sumTrans_le (by norm_num : (0 : Int) ≤ 500) sg.scenes hne
  have hcond : ¬ (lastEnd (layoutScenes 500 0 sg.scenes) > 60000) := by
    rw [hT0]
    omega
  have hp := timelinePair_no_reduce sg 500 hcond
  have htd : (buildTimeline sg 500).totalDuration
      = lastEnd (layoutScenes 500 0 sg.scenes) := by
    unfold buildTimeline
    rw [hp]
  rw [htd, hT0]
  constructor
  · omega
  · rw [show sumDur sg.scenes - (0 + sumDur sg.scenes - sumTrans 500 sg.scenes)
        = sumTrans 500 sg.scenes from by ring]
    rw [abs_of_nonneg hTnn]
    exact hTle

/-- a two-scene valid graph with captions (witness input for the timeline
claims). -/
def sceneA : Scene :=
  { id := 1
    description := "Opening shot".toList
    duration := 5000
    media := { type := MediaType.image
               asset := some "a.png".toList
               engine := none
               prompt := none
               effect := some VisualEffect.kenBurnsZoom }
    caption := "Hello".toList
    audio := none
    style := { mood := none, cameraMotion := none, lighting := none }
    overlays := []
    transition := TransitionType.fade }

def sceneB : Scene :=
  { id := 2
    description := "Closing shot".toList
    duration := 6000
    media := { type := MediaType.image
               asset := some "b.png".toList
               engine := none
               prompt := none
               effect := some VisualEffect.staticEffect }
    caption := "World".toList
    audio := none
    style := { mood := none, cameraMotion := none, lighting := none }
    overlays := []
    transition := TransitionType.cut }

def graph2 : SceneGraph :=
  { version := "2.0".toList, scenes := [sceneA, sceneB], globalAudio := emptyAudio }

/-- C3 witness: the duration-cap bound at a concrete valid two-scene graph. -/
theorem c3_timeline_duration_cap_witness :
    sceneGraphValid graph2 = true ∧
      ((buildTimeline graph2 500).totalDuration ≤ 60000 ∧
        |sumDur graph2.scenes - (buildTimeline graph2 500).totalDuration| ≤
          ((graph2.scenes.length : Int) - 1) * 500) :=
  ⟨by decide, c3_timeline_duration_cap graph2 (by decide)⟩

/-- transition duration carried by a timeline entry (`0` when absent). -/
def entryTransDur (e : TimelineEntry) : Int :=
  match e.transition with
  | some ts => ts.duration
  | none => 0

/-- adjacency relation of §8 invariant 2: non-decreasing starts, and overlap
bounded by the preceding entry's transition duration. -/
def adjRel (e1 e2 : TimelineEntry) : Prop :=
  e1.start ≤ e2.start ∧ e2.start ≥ e1.endMs - entryTransDur e1

theorem layout_head (dt : Int) (s : Scene) (rest : List Scene) (c : Int) :
    ∃ e l, layoutScenes dt c (s :: rest) = e :: l ∧ e.start = c ∧
      e.endMs = c + s.duration ∧
      entryTransDur e = (match rest with | [] => 0 | _ :: _ => transDur dt s) := by
  cases rest with
  | nil =>
    refine ⟨_, [], rfl, rfl, rfl, rfl⟩
  | cons s2 r2 =>
    refine ⟨_, _, rfl, rfl, rfl, rfl⟩

theorem layout_endMs_gt_start (dt : Int) :
    ∀ (scenes : List Scene) (c : Int), (∀ s ∈ scenes, 0 < s.duration) →
      ∀ e ∈ layoutScenes dt c scenes, e.start < e.endMs := by
  intro scenes
  induction scenes with
  | nil => intro c _ e he; simp [layoutScenes] at he
  | cons s rest ih =>
    intro c hdur e he
    cases rest with
    | nil =>
      simp only [layoutScenes, List.mem_singleton] at he
      subst he
      have := hdur s (by simp)
      simpa using this
    | cons s2 r2 =>
      rw [show layoutScenes dt c (s :: s2 :: r2) = _ :: layoutScenes dt
        (c + s.duration - transDur dt s) (s2 :: r2) from rfl] at he
      rcases List.mem_cons.mp he with hEq | hmem
      · subst hEq
        have := hdur s (by simp)
        simpa using this
      · exact ih (c + s.duration - transDur dt s)
          (fun x hx => hdur x (by simp [hx])) e hmem

theorem layout_chain (dt : Int) (hdt : 0 ≤ dt) :
    ∀ (scenes : List Scene) (c : Int), (∀ s ∈ scenes, dt ≤ s.duration) →
      List.Chain' adjRel (layoutScenes dt c scenes) := by
  intro scenes
  induction scenes with
  | nil => intro c _; simp [layoutScenes]
  | cons s rest ih =>
    intro c hdur
    cases rest with
    | nil => simp [layoutScenes]
    | cons s2 r2 =>
      rw [show layoutScenes dt c (s :: s2 :: r2) = _ :: layoutScenes dt
        (c + s.duration - transDur dt s) (s2 :: r2) from rfl]
      obtain ⟨e2, l2, hEq, hstart, _, _⟩ :=
        layout_head dt s2 r2 (c + s.duration - transDur dt s)
      rw [hEq]
      rw [List.chain'_cons]
      constructor
      · constructor
        · rw [hstart]
          have h1 := transDur_le hdt s
          have h2 := hdur s (by simp)
          simp only
          omega
        · rw [hstart]
          simp only [adjRel, entryTransDur]
          omega
      · rw [← hEq]
        exact ih (c + s.duration - transDur dt s) (fun x hx => hdur x (by simp [hx]))

/-- C4: for every valid scene graph the built timeline is monotone: every
entry ends after it starts, starts are non-decreasing, and a successor may
start no earlier than the predecessor's end minus the predecessor's
transition duration (i.e. consecutive entries overlap only by that
transition). -/
theorem c4_timeline_monotonicity (sg : SceneGraph) (h : sceneGraphValid sg = true) :
    (∀ i (hi : i < (buildTimeline sg 500).timeline.length),
      ((buildTimeline sg 500).timeline.get ⟨i, hi⟩).start <
        ((buildTimeline sg 500).timeline.get ⟨i, hi⟩).endMs) ∧
    (∀ i (hi : i + 1 < (buildTimeline sg 500).timeline.length),
      ((buildTimeline sg 500).timeline.get ⟨i, Nat.lt_of_succ_lt hi⟩).start ≤
        ((buildTimeline sg 500).timeline.get ⟨i + 1, hi⟩).start ∧
      ((buildTimeline sg 500).timeline.get ⟨i + 1, hi⟩).start ≥
        ((buildTimeline sg 500).timeline.get ⟨i, Nat.lt_of_succ_lt hi⟩).endMs -
          entryTransDur ((buildTimeline sg 500).timeline.get ⟨i, Nat.lt_of_succ_lt hi⟩)) := by
  obtain ⟨hne, hall, hnd, hsum⟩ := sceneGraphValid_elim h
  have hT0 := layout_lastEnd 500 sg.scenes 0 hne
  have hTnn := sumTrans_nonneg (by norm_num : (0 : Int) ≤ 500) sg.scenes
  have hcond : ¬ (lastEnd (layoutScenes 500 0 sg.scenes) > 60000) := by
    rw [hT0]
    omega
  have hp := timelinePair_no_reduce sg 500 hcond
  have htl : (buildTimeline sg 500).timeline = layoutScenes 500 0 sg.scenes := by
    unfold buildTimeline
    rw [hp]
  have hgt := layout_endMs_gt_start 500 sg.scenes 0
    (fun s hs => by have := (sceneValid_duration (hall s hs)).1; omega)
  have hch := layout_chain 500 (by norm_num) sg.scenes 0
    (fun s hs => by have := (sceneValid_duration (hall s hs)).1; omega)
  constructor
  · intro i hi
    apply hgt
    rw [← htl]
    exact List.get_mem _ _ _
  · intro i hi
    have hi2 : i < (layoutScenes 500 0 sg.scenes).length - 1 := by
      rw [htl] at hi
      omega
    have hstep := List.chain'_iff_get.mp hch i hi2
    obtain ⟨ha, hb⟩ := hstep
    constructor
    · convert ha using 2 <;> simp [htl]
    · convert hb using 2 <;> simp [htl]

/-- C4 witness: monotonicity at the first index of a concrete two-scene
timeline. -/
theorem c4_timeline_monotonicity_witness :
    sceneGraphValid graph2 = true ∧
      (0 + 1 < (buildTimeline graph2 500).timeline.length ∧
        ∀ i (hi : i + 1 < (buildTimeline graph2 500).timeline.length),
          ((buildTimeline graph2 500).timeline.get ⟨i, Nat.lt_of_succ_lt hi⟩).start ≤
            ((buildTimeline graph2 500).timeline.get ⟨i + 1, hi⟩).start) :=
  ⟨by decide, by decide,
   fun i hi => ((c4_timeline_monotonicity graph2 (by decide)).2 i hi).1⟩

theorem forall2_exists_left {α β : Type} {R : α → β → Prop} :
    ∀ {l1 : List α} {l2 : List β}, List.Forall₂ R l1 l2 →
      ∀ b ∈ l2, ∃ a ∈ l1, R a b := by
  intro l1 l2 h
  induction h with
  | nil => intro b hb; simp at hb
  | cons hR _ ih =>
    intro b hb
    rcases List.mem_cons.mp hb with hEq | hmem
    · subst hEq
      exact ⟨_, by simp, hR⟩
    · obtain ⟨a, ha, hr⟩ := ih b hmem
      exact ⟨a, by simp [ha], hr⟩

theorem layout_forall2 (dt : Int) : ∀ (scenes : List Scene) (c : Int),
    List.Forall₂ (fun (e : TimelineEntry) (s : Scene) =>
      e.sceneId = s.id ∧ e.endMs = e.start + s.duration)
      (layoutScenes dt c scenes) scenes := by
  intro scenes
  induction scenes with
  | nil => intro c; exact List.Forall₂.nil
  | cons s rest ih =>
    intro c
    cases rest with
    | nil => exact List.Forall₂.cons ⟨rfl, rfl⟩ List.Forall₂.nil
    | cons s2 r2 =>
      exact List.Forall₂.cons ⟨rfl, rfl⟩ (ih (c + s.duration - transDur dt s))

theorem layout_ids (dt : Int) : ∀ (scenes : List Scene) (c : Int),
    (layoutScenes dt c scenes).map (fun e => e.sceneId)
      = scenes.map (fun s => s.id) := by
  intro scenes
  induction scenes with
  | nil => intro c; rfl
  | cons s rest ih =>
    intro c
    cases rest with
    | nil => rfl
    | cons s2 r2 =>
      show _ :: (layoutScenes dt _ (s2 :: r2)).map _ = _
      rw [ih (c + s.duration - transDur dt s)]
      rfl

theorem entryFind_eq {entries : List TimelineEntry}
    (hnd : (entries.map (fun e => e.sceneId)).Nodup) {e : TimelineEntry}
    (he : e ∈ entries) : entryFind entries e.sceneId = some e := by
  unfold entryFind
  cases hfind : entries.reverse.find? (fun x => x.sceneId == e.sceneId) with
  | none =>
    rw [List.find?_eq_none] at hfind
    exact absurd (by simp) (hfind e (List.mem_reverse.mpr he))
  | some e2 =>
    have hp := List.find?_some hfind
    have hm : e2 ∈ entries := List.mem_reverse.mp (List.mem_of_find?_eq_some hfind)
    have hid : e2.sceneId = e.sceneId := by simpa using hp
    have : e2 = e := List.inj_on_of_nodup_map hnd hm he hid
    rw [this]

theorem mkCaption_elim {entries : List TimelineEntry} {s : Scene} {cap : CaptionTrack}
    (h : mkCaption entries s = some cap) :
    cap.text = s.caption ∧ cap.sceneId = some s.id ∧
      ∃ e2 ∈ entries, e2.sceneId = s.id ∧
        e2.start ≤ cap.start ∧ cap.endMs ≤ e2.endMs := by
  unfold mkCaption at h
  split at h
  · exact absurd h (by simp)
  · split at h
    · next te hfind =>
      have hmem : te ∈ entries := by
        unfold entryFind at hfind
        exact List.mem_reverse.mp (List.mem_of_find?_eq_some hfind)
      have hid : te.sceneId = s.id := by
        unfold entryFind at hfind
        have hp := List.find?_some hfind
        simpa using hp
      split at h
      · injection h with h
        subst h
        exact ⟨rfl, rfl, te, hmem, hid, le_refl _, le_refl _⟩
      · next hcl =>
        injection h with h
        subst h
        refine ⟨rfl, rfl, te, hmem, hid, ?_, ?_⟩
        · show te.start ≤ te.start + 200
          omega
        · show te.endMs - 200 ≤ te.endMs
          omega
    · exact absurd h (by simp)

theorem mkCaption_normal {entries : List TimelineEntry} {s : Scene} {e : TimelineEntry}
    (hnd : (entries.map (fun x => x.sceneId)).Nodup) (he : e ∈ entries)
    (hid : e.sceneId = s.id) (hcap : s.caption ≠ [])
    (hdur : 400 < e.endMs - e.start) :
    mkCaption entries s = some
      { text := s.caption, start := e.start + 200, endMs := e.endMs - 200,
        sceneId := some s.id } := by
  unfold mkCaption
  rw [if_neg (by simpa [List.isEmpty_iff] using hcap)]
  have hf : entryFind entries s.id = some e := by
    rw [← hid]
    exact entryFind_eq hnd he
  rw [hf]
  dsimp only
  rw [if_neg (by omega)]

theorem filter_captions {entries : List TimelineEntry} :
    ∀ (scenes : List Scene), (scenes.map (fun s => s.id)).Nodup →
      ∀ s ∈ scenes, ∀ t, mkCaption entries s = some t →
        (scenes.filterMap (mkCaption entries)).filter
          (fun c => c.sceneId == some s.id) = [t] := by
  intro scenes
  induction scenes with
  | nil => intro _ s hs; simp at hs
  | cons s0 rest ih =>
    intro hnd s hs t ht
    rw [List.map_cons] at hnd
    have hnd2 := List.nodup_cons.mp hnd
    rcases List.mem_cons.mp hs with hEq | hmem
    · subst hEq
      rw [List.filterMap_cons, ht]
      rw [List.filter_cons_of_pos (by simp [(mkCaption_elim ht).2.1])]
      have hnil : (rest.filterMap (mkCaption entries)).filter
          (fun c => c.sceneId == some s.id) = [] := by
        rw [List.filter_eq_nil_iff]
        intro cap hcap
        obtain ⟨s2, hs2, hmk⟩ := List.mem_filterMap.mp hcap
        obtain ⟨_, hsid, _⟩ := mkCaption_elim hmk
        have hne : s2.id ≠ s.id := by
          intro hEq2
          exact hnd2.1 (by rw [← hEq2]; exact List.mem_map.mpr ⟨s2, hs2, rfl⟩)
        simp [hsid, hne]
      rw [hnil]
    · have hne : s0.id ≠ s.id := by
        intro hEq2
        exact hnd2.1 (by rw [hEq2]; exact List.mem_map.mpr ⟨s, hmem, rfl⟩)
      rw [List.filterMap_cons]
      cases h0 : mkCaption entries s0 with
      | none => exact ih hnd2.2 s hmem t ht
      | some t0 =>
        obtain ⟨_, hsid0, _⟩ := mkCaption_elim h0
        rw [List.filter_cons_of_neg (by simp [hsid0, hne])]
        exact ih hnd2.2 s hmem t ht

/-- C5: in the timeline built from a valid scene graph, every scene with a
nonempty caption yields exactly one caption track, placed on
`[entry.start + 200, entry.end - 200]` (the clamp to the full window cannot
trigger since durations are at least 1000 ms), and every caption tagged with
a scene id lies within that scene's entry window. -/
theorem c5_caption_tracks (sg : SceneGraph) (h : sceneGraphValid sg = true) :
    (∀ s ∈ sg.scenes, s.caption ≠ [] →
      ∃ e ∈ (buildTimeline sg 500).timeline, e.sceneId = s.id ∧
        (buildTimeline sg 500).tracks.captions.filter
          (fun c => c.sceneId == some s.id)
          = [{ text := s.caption, start := e.start + 200, endMs := e.endMs - 200,
               sceneId := some s.id }]) ∧
    (∀ cap ∈ (buildTimeline sg 500).tracks.captions,
      ∀ e ∈ (buildTimeline sg 500).timeline,
        cap.sceneId = some e.sceneId → e.start ≤ cap.start ∧ cap.endMs ≤ e.endMs) := by
  obtain ⟨hne, hall, hnd, hsum⟩ := sceneGraphValid_elim h
  have hT0 := layout_lastEnd 500 sg.scenes 0 hne
  have hTnn := sumTrans_nonneg (by norm_num : (0 : Int) ≤ 500) sg.scenes
  have hcond : ¬ (lastEnd (layoutScenes 500 0 sg.scenes) > 60000) := by
    rw [hT0]
    omega
  have hp := timelinePair_no_reduce sg 500 hcond
  have htl : (buildTimeline sg 500).timeline = layoutScenes 500 0 sg.scenes := by
    unfold buildTimeline
    rw [hp]
  have hcaps : (buildTimeline sg 500).tracks.captions
      = sg.scenes.filterMap (mkCaption (layoutScenes 500 0 sg.scenes)) := by
    unfold buildTimeline
    rw [hp]
  have hndE : ((layoutScenes 500 0 sg.scenes).map (fun e => e.sceneId)).Nodup := by
    rw [layout_ids]
    exact hnd
  have hf2 := layout_forall2 500 sg.scenes 0
  constructor
  · intro s hs hcap
    obtain ⟨e, he, hpair⟩ := forall2_exists_left hf2 s hs
    have hd := (sceneValid_duration (hall s hs)).1
    have hdur400 : 400 < e.endMs - e.start := by
      rw [hpair.2]
      omega
    have hmk := mkCaption_normal hndE he hpair.1 hcap hdur400
    refine ⟨e, by rw [htl]; exact he, hpair.1, ?_⟩
    rw [hcaps]
    exact filter_captions sg.scenes hnd s hs _ hmk
  · intro cap hcap e he hsid
    rw [hcaps] at hcap
    rw [htl] at he
    obtain ⟨s2, hs2, hmk⟩ := List.mem_filterMap.mp hcap
    obtain ⟨_, hsid2, e2, he2, hid2, hb1, hb2⟩ := mkCaption_elim hmk
    have hes : e.sceneId = s2.id := by
      rw [hsid] at hsid2
      exact Option.some.inj hsid2
    have hee : e = e2 := List.inj_on_of_nodup_map hndE he he2 (by rw [hes, hid2])
    rw [hee]
    exact ⟨hb1, hb2⟩

/-- C5 witness: exactly one caption track for the first scene of a concrete
two-scene graph. -/
theorem c5_caption_tracks_witness :
    sceneGraphValid graph2 = true ∧ sceneA ∈ graph2.scenes ∧ sceneA.caption ≠ [] ∧
      ∃ e ∈ (buildTimeline graph2 500).timeline, e.sceneId = sceneA.id ∧
        (buildTimeline graph2 500).tracks.captions.filter
          (fun c => c.sceneId == some sceneA.id)
          = [{ text := sceneA.caption, start := e.start + 200, endMs := e.endMs - 200,
               sceneId := some sceneA.id }] :=
  ⟨by decide, by decide, by decide,
   (c5_caption_tracks graph2 (by decide)).1 sceneA (by decide) (by decide)⟩

/-! ## Scene Planner (`pytoon/scene_graph/planner.py`).
`get_preset("product_hero_clean")` reads the absent `config/presets.yaml`,
so the preset dict is `{}` throughout: preset moods, captions and music are
all absent. -/

def isDigitCh (c : Char) : Bool := 48 ≤ c.toNat && c.toNat ≤ 57

/-- length of a `<SHOT\s*\d+\s*>` match starting at the head of the string
(`re.IGNORECASE`), when there is one. -/
def shotMatchLen (s : List Char) : Option ℕ :=
  match matchKey "<shot".toList s with
  | some r1 =>
    let r2 := r1.dropWhile pyIsSpace
    let ds := r2.takeWhile isDigitCh
    let r3 := r2.dropWhile isDigitCh
    let r4 := r3.dropWhile pyIsSpace
    if ds.isEmpty then none
    else
      match r4 with
      | c :: _ =>
        if c == '>' then
          some (5 + (r1.length - r2.length) + ds.length + (r3.length - r4.length) + 1)
        else none
      | [] => none
  | none => none

/-- `_SHOT_PATTERN.search(prompt)`. -/
def hasShotMarker : List Char → Bool
  | [] => false
  | c :: t => (shotMatchLen (c :: t)).isSome || hasShotMarker t

/-- `_SHOT_PATTERN.split(prompt)` (fuel-driven scan; the fuel starts at the
string length and every step consumes at least one character). -/
def shotSplitGo : ℕ → List Char → List Char → List (List Char)
  | _, acc, [] => [acc.reverse]
  | 0, acc, s => [acc.reverse ++ s]
  | fuel + 1, acc, c :: t =>
    match shotMatchLen (c :: t) with
    | some L => acc.reverse :: shotSplitGo fuel [] ((c :: t).drop L)
    | none => shotSplitGo fuel (c :: acc) t

def shotSplit (s : List Char) : List (List Char) := shotSplitGo s.length [] s

/-- `_MOOD_KEYWORDS` (insertion order). -/
def moodKeywords : List (List Char × List Char) :=
  [("cinematic".toList, "cinematic".toList),
   ("dramatic".toList, "dramatic".toList),
   ("warm".toList, "warm".toList),
   ("cool".toList, "cool".toList),
   ("upbeat".toList, "upbeat".toList),
   ("fun".toList, "fun".toList),
   ("elegant".toList, "elegant".toList),
   ("neon".toList, "neon".toList)]

/-- `_CAMERA_KEYWORDS` (insertion order). -/
def cameraKeywords : List (List Char × List Char) :=
  [("slow zoom".toList, "slow zoom in".toList),
   ("dolly".toList, "slow dolly in".toList),
   ("pan left".toList, "pan left".toList),
   ("pan right".toList, "pan right".toList),
   ("orbit".toList, "orbit".toList),
   ("static".toList, "static".toList)]

/-- `_extract_style` with the empty preset: first matching keyword wins,
preset fallbacks are `None`. -/
def extractStyle (text : List Char) : SceneStyle :=
  { mood := (moodKeywords.find? (fun p => strContains p.1 (lowStr text))).map
      (fun p => p.2),
    cameraMotion := (cameraKeywords.find? (fun p => strContains p.1 (lowStr text))).map
      (fun p => p.2),
    lighting := none }

def defaultSceneDurationMs : Int := 5000

/-- scene built by strategies 1-2 for one text (image-backed when an image
is available, video otherwise). -/
def sceneForText (i : ℕ) (text : List Char) (image : Option (List Char))
    (engineId : Option EngineId) : Scene :=
  { id := (i : Int) + 1
    description := text.take 120
    duration := defaultSceneDurationMs
    media :=
      match image with
      | some img => { type := MediaType.image, asset := some img, engine := none,
                      prompt := none, effect := some VisualEffect.kenBurnsZoom }
      | none => { type := MediaType.video, asset := none, engine := engineId,
                  prompt := some text, effect := none }
    caption := text
    audio := none
    style := extractStyle text
    overlays := []
    transition := TransitionType.fade }

/-- `_plan_from_shots`: one scene per marker-delimited segment; image at
index `i` when available (no cycling). -/
def planFromShots (prompt : List Char) (mediaFiles : List (List Char))
    (engineId : Option EngineId) : List Scene :=
  let shotTexts := ((shotSplit prompt).map pyStrip).filter (fun p => !p.isEmpty)
  shotTexts.enum.map (fun q =>
    sceneForText q.1 q.2 (mediaFiles.get? q.1) engineId)

/-- `_plan_from_sentences`: one scene per sentence; images cycle via
`i % len(media_files)`. -/
def planFromSentences (prompt : List Char) (mediaFiles : List (List Char))
    (engineId : Option EngineId) : List Scene :=
  let sentences0 := ((splitSentRe prompt).map pyStrip).filter (fun p => !p.isEmpty)
  let sentences := if sentences0.isEmpty then [pyStrip prompt] else sentences0
  sentences.enum.map (fun q =>
    sceneForText q.1 q.2
      (if mediaFiles.isEmpty then none else mediaFiles.get? (q.1 % mediaFiles.length))
      engineId)

/-- `_plan_from_images` (`default_caption` is absent from the empty preset). -/
def planFromImages (mediaFiles : List (List Char)) : List Scene :=
  mediaFiles.enum.map (fun q =>
    { id := (q.1 : Int) + 1
      description := "Product image ".toList ++ (Nat.repr (q.1 + 1)).toList
      duration := defaultSceneDurationMs
      media := { type := MediaType.image, asset := some q.2, engine := none,
                 prompt := none, effect := some VisualEffect.kenBurnsZoom }
      caption := []
      audio := none
      style := { mood := none, cameraMotion := none, lighting := none }
      overlays := []
      transition := TransitionType.fade })

/-- `_plan_from_template`. -/
def planFromTemplate : List Scene :=
  [("Intro — product reveal".toList, "Introducing our product".toList),
   ("Feature highlight".toList, "Discover the key features".toList),
   ("Call to action".toList, "Get yours today".toList)].enum.map (fun q =>
    { id := (q.1 : Int) + 1
      description := q.2.1
      duration := defaultSceneDurationMs
      media := { type := MediaType.image, asset := none, engine := none,
                 prompt := none, effect := some VisualEffect.staticEffect }
      caption := q.2.2
      audio := none
      style := { mood := none, cameraMotion := none, lighting := none }
      overlays := []
      transition := TransitionType.fade })

/-- `_assign_durations`: word-for-word embedding (float arithmetic over ℚ,
`int(...)` as `pyInt`; `target_ms // n` is Python floor division). -/
def assignDurations (scenes : List Scene) (targetMs : Int) (voiceoverMs : Option Int) :
    List Scene :=
  let scenes1 :=
    match voiceoverMs with
    | some v =>
      if v > 0 then
        let totalChars : Int := max (scenes.foldl (fun a s => a + (s.caption.length : Int)) 0) 1
        let effectiveTotal : Int := min v 60000
        scenes.map (fun s =>
          { s with duration := max 1000 (pyInt ((max (s.caption.length : ℚ) 1 / (totalChars : ℚ)) * (effectiveTotal : ℚ))) })
      else
        scenes.map (fun s =>
          { s with duration := max 1000 (pyFloorDiv targetMs (scenes.length : Int)) })
    | none =>
      scenes.map (fun s =>
        { s with duration := max 1000 (pyFloorDiv targetMs (scenes.length : Int)) })
  let total := sumDur scenes1
  if total > 60000 then
    scenes1.map (fun s =>
      { s with duration := max 1000 (pyInt ((s.duration : ℚ) * (60000 / (total : ℚ)))) })
  else scenes1

/-- brand-safe transition post-pass of `plan_scenes`. -/
def brandSafeTransitions (scenes : List Scene) : List Scene :=
  scenes.map (fun s =>
    if s.transition == TransitionType.cut || s.transition == TransitionType.fade then s
    else { s with transition := TransitionType.fade })

/-- `_validate_scene_graph` alone (ids unique, total ≤ 60 000 ms); scene
mutation in `_assign_durations` does not re-trigger pydantic field checks. -/
def sceneGraphModelValid (sg : SceneGraph) : Bool :=
  decide (sg.scenes.map (fun s => s.id)).Nodup && (sumDur sg.scenes ≤ 60000)

/-- `plan_scenes` (presets empty; `PlanningError` and pydantic
`ValidationError` become `Except.error`). -/
def planScenes (mediaFiles : List (List Char)) (prompt : List Char) (brandSafe : Bool)
    (targetDurationSeconds : Int) (voiceoverMs : Option Int)
    (enginePref : Option (List Char)) : Except (List Char) SceneGraph :=
  let targetMs := min (targetDurationSeconds * 1000) 60000
  let engineId : Option EngineId :=
    match enginePref with
    | some p =>
      if p == "runway".toList then some EngineId.runway
      else if p == "pika".toList then some EngineId.pika
      else if p == "luma".toList then some EngineId.luma
      else if p == "local".toList then some EngineId.localEngine
      else none
    | none => none
  let scenes0 :=
    if !prompt.isEmpty && hasShotMarker prompt then planFromShots prompt mediaFiles engineId
    else if !prompt.isEmpty then planFromSentences prompt mediaFiles engineId
    else if !mediaFiles.isEmpty then planFromImages mediaFiles
    else planFromTemplate
  if scenes0.isEmpty then Except.error "PlanningError".toList
  else
    let scenes1 := assignDurations scenes0 targetMs voiceoverMs
    let scenes2 := if brandSafe then brandSafeTransitions scenes1 else scenes1
    let sg : SceneGraph :=
      { version := "2.0".toList,
        scenes := scenes2,
        globalAudio := { voiceScript := if prompt.isEmpty then none else some prompt,
                         voiceFile := none, backgroundMusic := none } }
    if sceneGraphModelValid sg then Except.ok sg
    else Except.error "ValidationError".toList

/- Batteries marks the ℚ field operations `@[irreducible]`; concrete
evaluation of the float-modelled arithmetic needs them to unfold. -/
attribute [local semireducible] Rat.mul Rat.add Rat.sub Rat.inv

/-- 61 short sentences: `"a. a. ... a."`. -/
def c2Prompt : List Char := joinSp (List.replicate 61 "a.".toList)

def exceptIsError (r : Except (List Char) SceneGraph) (msg : List Char) : Bool :=
  match r with
  | Except.error e => e == msg
  | Except.ok _ => false

set_option maxRecDepth 8000 in
/-- C2: `plan_scenes` does NOT always return a graph whose durations sum to
at most 60 000 ms.  On a prompt of 61 short sentences with the default
15-second target, each scene gets the 1 000 ms floor (15000 // 61 = 245 < 1000),
the total is 61 000 ms, the proportional post-pass is defeated by the same
floor (int(1000 * 60/61) = 983 → 1000), and the `SceneGraph` constructor
raises a pydantic `ValidationError` instead of returning a capped graph. -/
theorem c2_planner_cap_violation :
    sumDur (assignDurations (planFromSentences c2Prompt [] none) 15000 none) = 61000 ∧
    exceptIsError (planScenes [] c2Prompt true 15 none none) "ValidationError".toList = true := by
  exact ⟨by decide, by decide⟩

/-! ## Caption auto-wrap (`pytoon/audio_manager/caption_renderer.py`,
`_auto_wrap`, SAFE_LEFT = SAFE_RIGHT = 54, MAX_LINES = 2).  The float
constant `0.55` is modelled as the exact rational `55/100`; `int(...)` is
`pyInt`. -/

/-- `chars_per_line = max(10, int(usable_width / (font_size * 0.55)))`;
`font_size = 0` raises `ZeroDivisionError` (modelled as `none`). -/
def charsPerLine (fontSize frameWidth : Int) : Option Int :=
  if fontSize = 0 then none
  else
    some (max 10 (pyInt ((frameWidth - 54 - 54 - 28 : ℚ) / ((fontSize : ℚ) * (55 / 100)))))

/-- the greedy word-wrap loop of `_auto_wrap` (state: emitted lines,
current line's words, current length). -/
def autoWrapGreedy (cpl : Int) (ws : List (List Char)) : List (List Char) :=
  let st := ws.foldl (fun st word =>
    let wl : Int := word.length
    if st.2.2 + wl + (if st.2.1.isEmpty then 0 else 1) > cpl then
      (st.1 ++ (if st.2.1.isEmpty then ([] : List (List Char)) else [joinSp st.2.1]),
       ([word], wl))
    else
      let cur2 := st.2.1 ++ [word]
      (st.1, (cur2, st.2.2 + wl + (if cur2.length > 1 then (1 : Int) else 0))))
    (([] : List (List Char)), (([] : List (List Char)), (0 : Int)))
  st.1 ++ (if st.2.1.isEmpty then [] else [joinSp st.2.1])

/-- the `MAX_LINES` post-pass: keep 2 lines, truncating the second to
`chars_per_line - 3` characters plus `"..."`. -/
def capLines (cpl : Int) (lines0 : List (List Char)) : List (List Char) :=
  if 2 < lines0.length then
    match lines0 with
    | l1 :: l2 :: _ => [l1, pySliceTo l2 (cpl - 3) ++ "...".toList]
    | _ => lines0
  else lines0

def autoWrapCapped (cpl : Int) (ws : List (List Char)) : List (List Char) :=
  capLines cpl (autoWrapGreedy cpl ws)

/-- `_auto_wrap` (`none` models the `ZeroDivisionError` at `font_size = 0`;
the joined lines are separated by the literal two-character `\n` ffmpeg
escape). -/
def autoWrap (text : List Char) (fontSize frameWidth : Int) : Option (List Char) :=
  match charsPerLine fontSize frameWidth with
  | none => none
  | some cpl =>
    let ws := pyWords text
    if ws.isEmpty then some text
    else some (joinWith ['\\', 'n'] (autoWrapCapped cpl ws))


theorem capLines_len (cpl : Int) : ∀ L : List (List Char), 2 < L.length → (capLines cpl L).length ≤ 2 := by
  intro L h
  match L, h with
  | a :: b :: c :: t, h =>
    unfold capLines
    rw [if_pos h]
    simp

theorem capLines_id (cpl : Int) (L : List (List Char)) (h : ¬ 2 < L.length) :
    capLines cpl L = L := by
  unfold capLines
  rw [if_neg h]

theorem capLines_ellipsis (cpl : Int) (L : List (List Char)) (h : 2 < L.length) :
    ∃ l1 l2, capLines cpl L = [l1, l2] ∧ "...".toList <:+ l2 := by
  match L, h with
  | a :: b :: c :: t, h =>
    refine ⟨a, pySliceTo b (cpl - 3) ++ "...".toList, ?_, List.suffix_append _ _⟩
    unfold capLines
    rw [if_pos h]

/-- C9: amended.  For every text and every NONZERO font size, `_auto_wrap`
returns at most `MAX_LINES = 2` lines, and when the greedy wrap produces a
third line the output is exactly two lines whose second ends in `"..."`;
the wrapped lines are joined by the two-character `\n` separator.  (At
`font_size = 0` the claim fails: the chars-per-line estimate divides by
zero, see the counterexample.) -/
theorem c9_auto_wrap_two_lines (text : List Char) (fontSize frameWidth : Int)
    (h : fontSize ≠ 0) :
    ∃ cpl, charsPerLine fontSize frameWidth = some cpl ∧
      (autoWrapCapped cpl (pyWords text)).length ≤ 2 ∧
      (2 < (autoWrapGreedy cpl (pyWords text)).length →
        ∃ l1 l2, autoWrapCapped cpl (pyWords text) = [l1, l2] ∧
          "...".toList <:+ l2) ∧
      ((pyWords text).isEmpty = false →
        autoWrap text fontSize frameWidth =
          some (joinWith ['\\', 'n'] (autoWrapCapped cpl (pyWords text)))) := by
  have hcq : charsPerLine fontSize frameWidth =
      some (max 10 (pyInt ((frameWidth - 54 - 54 - 28 : ℚ) / ((fontSize : ℚ) * (55 / 100))))) := by
    unfold charsPerLine
    rw [if_neg h]
  refine ⟨_, hcq, ?_, ?_, ?_⟩
  · by_cases h2 : 2 < (autoWrapGreedy (max 10 (pyInt ((frameWidth - 54 - 54 - 28 : ℚ) / ((fontSize : ℚ) * (55 / 100))))) (pyWords text)).length
    · exact capLines_len _ _ h2
    · unfold autoWrapCapped
      rw [capLines_id _ _ h2]
      omega
  · intro hgt
    exact capLines_ellipsis _ _ hgt
  · intro hne
    unfold autoWrap
    rw [hcq]
    simp only [hne, Bool.false_eq_true, if_false]

def c9Text : List Char := "aaaaaaaaaaaa bbbbbbbbbbbb cccccccccccc".toList

theorem c9_auto_wrap_two_lines_witness :
    (48 : Int) ≠ 0 ∧
    (∃ cpl, charsPerLine 48 150 = some cpl ∧
      (autoWrapCapped cpl (pyWords c9Text)).length ≤ 2 ∧
      (2 < (autoWrapGreedy cpl (pyWords c9Text)).length →
        ∃ l1 l2, autoWrapCapped cpl (pyWords c9Text) = [l1, l2] ∧
          "...".toList <:+ l2) ∧
      ((pyWords c9Text).isEmpty = false →
        autoWrap c9Text 48 150 =
          some (joinWith ['\\', 'n'] (autoWrapCapped cpl (pyWords c9Text))))) :=
  ⟨by decide, c9_auto_wrap_two_lines c9Text 48 150 (by decide)⟩

/-- C9 counterexample: `caption_renderer._auto_wrap` is NOT total in the
font size — at `font_size = 0` the chars-per-line estimate
`usable_width / (font_size * 0.55)` raises `ZeroDivisionError`, so no
wrapped caption is produced at all. -/
theorem c9_auto_wrap_zero_font : autoWrap "Hello world".toList 0 1920 = none := by decide

/-! ## Voice-to-scene mapping (`pytoon/audio_manager/voice_mapper.py`,
`map_voice_to_scenes`).  The `assignments` dict (insertion-ordered, keyed
by scene id) is modelled as the list of per-scene sentence groups in
`scene_ids` order, which is faithful when the scene ids are distinct — the
Scene Graph invariant callers rely on.  Floats (`n_sentences / n_scenes`
accumulation, duration estimates, `_WORDS_PER_SECOND = 2.5`) are modelled
as exact rationals with `int(...)` as `pyInt`.  A `none` result models the
`ZeroDivisionError` when `scene_ids` is empty but sentences exist. -/

structure VoiceSegment where
  sceneId : Int
  text : List Char
  estimatedDurationMs : Int
  startMs : Int
  endMs : Int

structure VoiceMappingResult where
  segments : List VoiceSegment
  totalVoiceDurationMs : Int
  scenesWithoutVoice : List Int

/-- the sentence-distribution loop of the `n_sentences > n_scenes` branch
(`remaining` counts the scenes still to fill; `idx` is the running float
index; the last scene's `end` is pinned to `n_sentences`). -/
def voiceGroupsGo (sents : List (List Char)) (per : ℚ) :
    ℕ → ℚ → List (List (List Char))
  | 0, _ => []
  | r + 1, idx =>
    let nextIdx := idx + per
    let s := (pyInt idx).toNat
    let e := if r = 0 then sents.length else (pyInt nextIdx).toNat
    ((sents.drop s).take (e - s)) :: voiceGroupsGo sents per r nextIdx

def voiceGroups (sents : List (List Char)) (nScenes : ℕ) : List (List (List Char)) :=
  voiceGroupsGo sents ((sents.length : ℚ) / (nScenes : ℚ)) nScenes 0

/-- the `n_sentences <= n_scenes` branch: `assignments[scene_ids[i]]`
receives `sentences[i]` (scenes beyond the sentences get nothing). -/
def voiceGroupsFew (sents : List (List Char)) (nScenes : ℕ) : List (List (List Char)) :=
  (List.range nScenes).map (fun i =>
    match sents.get? i with
    | some s => [s]
    | none => [])

/-- the segment-building loop: skips voiceless scenes, estimates the
duration (proportional to word share when a voice duration is given, else
from the ~2.5 words-per-second rate), clamps it to the scene duration and
the 500 ms floor, and advances the cursor.  Returns
(segments, scenes_without_voice). -/
def voiceSegsGo (sceneDurs : List Int) (voiceDur : Option Int) (totalWords : Int) :
    ℕ → Int → List (Int × List (List Char)) → List VoiceSegment × List Int
  | _, _, [] => ([], [])
  | i, cursor, (sid, texts) :: rest =>
    if texts.isEmpty then
      let r := voiceSegsGo sceneDurs voiceDur totalWords (i + 1) cursor rest
      (r.1, sid :: r.2)
    else
      let combined := joinSp texts
      let wc : Int := ((pyWords combined).length : Int)
      let est0 : Int :=
        match voiceDur with
        | some v =>
          if v != 0 && totalWords > 0 then pyInt ((v : ℚ) * ((wc : ℚ) / (totalWords : ℚ)))
          else pyInt (((wc : ℚ) / (5 / 2)) * 1000)
        | none => pyInt (((wc : ℚ) / (5 / 2)) * 1000)
      let est := max (min est0 (sceneDurs.getD i 5000)) 500
      let r := voiceSegsGo sceneDurs voiceDur totalWords (i + 1) (cursor + est) rest
      ({ sceneId := sid, text := combined, estimatedDurationMs := est,
         startMs := cursor, endMs := cursor + est } :: r.1, r.2)

/-- `map_voice_to_scenes` (the dict modelled positionally, see above). -/
def mapVoiceToScenes (transcript : List Char) (sceneIds : List Int)
    (sceneDurs : List Int) (voiceDur : Option Int) : Option VoiceMappingResult :=
  let sentences := splitSentences transcript
  if sentences.isEmpty then
    some { segments := [], totalVoiceDurationMs := 0, scenesWithoutVoice := sceneIds }
  else if sceneIds.isEmpty then none
  else
    let groups :=
      if sentences.length ≤ sceneIds.length then voiceGroupsFew sentences sceneIds.length
      else voiceGroups sentences sceneIds.length
    let totalWords : Int := sentences.foldl (fun a s => a + ((pyWords s).length : Int)) 0
    let r := voiceSegsGo sceneDurs voiceDur totalWords 0 0 (sceneIds.zip groups)
    some { segments := r.1,
           totalVoiceDurationMs := r.1.foldl (fun a sg => a + sg.estimatedDurationMs) 0,
           scenesWithoutVoice := r.2 }

theorem pyInt_mono_nonneg {a b : ℚ} (ha : 0 ≤ a) (hab : a ≤ b) : pyInt a ≤ pyInt b := by
  unfold pyInt
  rw [if_pos ha, if_pos (le_trans ha hab)]
  exact Int.floor_le_floor hab

theorem drop_take_drop {α : Type} (l : List α) (s e : ℕ) (h : s ≤ e) :
    (l.drop s).take (e - s) ++ l.drop e = l.drop s := by
  conv_rhs => rw [← List.take_append_drop (e - s) (l.drop s)]
  congr 1
  rw [List.drop_drop]
  congr 1
  omega

theorem voiceGroupsGo_join (sents : List (List Char)) (per : ℚ) (hper : 0 ≤ per) :
    ∀ (r : ℕ) (idx : ℚ), 0 ≤ idx →
      (voiceGroupsGo sents per (r + 1) idx).flatten = sents.drop (pyInt idx).toNat := by
  intro r
  induction r with
  | zero =>
    intro idx h0
    simp only [voiceGroupsGo, if_true, List.flatten_cons, List.flatten_nil, List.append_nil]
    have hlen : (sents.drop (pyInt idx).toNat).length = sents.length - (pyInt idx).toNat :=
      List.length_drop _ _
    rw [← hlen, List.take_length]
  | succ n ih =>
    intro idx h0
    have hnext : (0 : ℚ) ≤ idx + per := by linarith
    have hmono : (pyInt idx).toNat ≤ (pyInt (idx + per)).toNat :=
      Int.toNat_le_toNat (pyInt_mono_nonneg h0 (by linarith))
    rw [voiceGroupsGo]
    rw [if_neg (Nat.succ_ne_zero n)]
    rw [List.flatten_cons]
    rw [ih (idx + per) hnext]
    exact drop_take_drop sents _ _ hmono

theorem pyInt_zero : pyInt 0 = 0 := by
  unfold pyInt
  rw [if_pos le_rfl]
  simp

theorem voiceGroups_join (sents : List (List Char)) (n : ℕ) (hn : 0 < n) :
    (voiceGroups sents n).flatten = sents := by
  obtain ⟨m, rfl⟩ : ∃ m, n = m + 1 := ⟨n - 1, by omega⟩
  unfold voiceGroups
  rw [voiceGroupsGo_join sents _ (by positivity) m 0 le_rfl]
  rw [pyInt_zero]
  rfl

theorem voiceGroupsGo_length (sents : List (List Char)) (per : ℚ) :
    ∀ (r : ℕ) (idx : ℚ), (voiceGroupsGo sents per r idx).length = r := by
  intro r
  induction r with
  | zero => intro idx; rfl
  | succ n ih =>
    intro idx
    simp only [voiceGroupsGo, List.length_cons, ih]

theorem zipSndEq : ∀ (l1 : List Int) (l2 : List (List (List Char))),
    l1.length = l2.length → (l1.zip l2).map Prod.snd = l2
  | [], [], _ => rfl
  | [], _ :: _, h => by simp at h
  | _ :: _, [], h => by simp at h
  | a :: t1, b :: t2, h => by
    simp only [List.zip_cons_cons, List.map_cons]
    rw [zipSndEq t1 t2 (by simpa using h)]

theorem voiceSegsGo_texts (ds : List Int) (vd : Option Int) (tw : Int) :
    ∀ (ps : List (Int × List (List Char))) (i : ℕ) (cursor : Int),
      (voiceSegsGo ds vd tw i cursor ps).1.map (fun sg => sg.text) =
        ((ps.map Prod.snd).filter (fun g => !g.isEmpty)).map joinSp := by
  intro ps
  induction ps with
  | nil => intro i cursor; rfl
  | cons p rest ih =>
    intro i cursor
    obtain ⟨sid, texts⟩ := p
    by_cases hE : texts.isEmpty = true
    · simp only [voiceSegsGo, if_pos hE, List.map_cons, List.filter_cons, hE,
        Bool.not_true, List.map]
      exact ih _ _
    · have hE2 : texts.isEmpty = false := by
        cases h : texts.isEmpty
        · rfl
        · exact absurd h hE
      simp only [voiceSegsGo, if_neg hE, List.map_cons, List.filter_cons, hE2,
        Bool.not_false, List.map]
      rw [ih]

/-- C10: with more sentences than (distinct) scenes, the float-index
distribution of `map_voice_to_scenes` partitions the sentence list — the
per-scene groups concatenate, in scene order, back to exactly the split
transcript (nothing dropped, nothing duplicated) — and the emitted
segments carry, in order, the space-joined texts of precisely the
non-empty groups. -/
theorem c10_voice_sentence_partition (transcript : List Char) (sceneIds : List Int)
    (sceneDurs : List Int) (voiceDur : Option Int)
    (hnd : sceneIds.Nodup)
    (h0 : 0 < sceneIds.length)
    (hlt : sceneIds.length < (splitSentences transcript).length) :
    (voiceGroups (splitSentences transcript) sceneIds.length).flatten =
      splitSentences transcript ∧
    ∃ r, mapVoiceToScenes transcript sceneIds sceneDurs voiceDur = some r ∧
      r.segments.map (fun sg => sg.text) =
        ((voiceGroups (splitSentences transcript) sceneIds.length).filter
          (fun g => !g.isEmpty)).map joinSp := by
  refine ⟨voiceGroups_join (splitSentences transcript) sceneIds.length h0, ?_⟩
  have h1 : (splitSentences transcript).isEmpty = false := by
    cases h : (splitSentences transcript).isEmpty
    · rfl
    · rw [List.isEmpty_iff.mp h] at hlt
      simp at hlt
  have h2 : sceneIds.isEmpty = false := by
    cases h : sceneIds.isEmpty
    · rfl
    · rw [List.isEmpty_iff.mp h] at h0
      simp at h0
  have h3 : ¬ (splitSentences transcript).length ≤ sceneIds.length := by omega
  have hlen : sceneIds.length =
      (voiceGroups (splitSentences transcript) sceneIds.length).length := by
    unfold voiceGroups
    rw [voiceGroupsGo_length]
  unfold mapVoiceToScenes
  simp only [h1, h2, Bool.false_eq_true, if_false]
  rw [if_neg h3]
  refine ⟨_, rfl, ?_⟩
  rw [voiceSegsGo_texts]
  rw [zipSndEq _ _ hlen]

theorem c10_voice_sentence_partition_witness :
    ([1, 2] : List Int).Nodup ∧ 0 < ([1, 2] : List Int).length ∧
    ([1, 2] : List Int).length < (splitSentences "A. B. C.".toList).length ∧
    ((voiceGroups (splitSentences "A. B. C.".toList) ([1, 2] : List Int).length).flatten =
        splitSentences "A. B. C.".toList ∧
      ∃ r, mapVoiceToScenes "A. B. C.".toList [1, 2] [5000, 5000] none = some r ∧
        r.segments.map (fun sg => sg.text) =
          ((voiceGroups (splitSentences "A. B. C.".toList) ([1, 2] : List Int).length).filter
            (fun g => !g.isEmpty)).map joinSp) :=
  ⟨by decide, by decide, by decide,
   c10_voice_sentence_partition "A. B. C.".toList [1, 2] [5000, 5000] none
     (by decide) (by decide) (by decide)⟩
